import Mathlib

/-!
Shallow embedding of `src/notion.py` (class `NotionBackup`), the single source
file of the repository: a script that reads a flat, parent-pointer list of
Notion pages, rebuilds the page hierarchy, and mirrors it into Google Drive
folders with one JSON content artifact per page.

Python values that flow through the script (pages, `parent` fields, title
properties) are modelled by the inductive type `PyVal`; Python operations that
can raise (`d[k]`, `d.get(k, default)`, `k in d`, `xs[i]`) are modelled in
`Except Unit`, an `Except.error` standing for a raised exception.  The two
external services are modelled by explicit state: the Google Drive service as
`DriveState` (a list of files/folders), and failure injection for the network
calls by boolean oracles in `Env`.
-/

/-- Model of the Python/JSON values handled by the script: `None`, strings,
lists and string-keyed dicts (the only shapes the script manipulates). -/
inductive PyVal where
  | none : PyVal
  | str (s : String) : PyVal
  | list (xs : List PyVal) : PyVal
  | dict (entries : List (String × PyVal)) : PyVal

/-- Python truthiness of a `PyVal` (`if v:`): `None`, `""`, `[]`, `{}` are
falsy, everything else truthy. -/
def pyTruthy : PyVal → Bool
  | .none => false
  | .str s => !(s == "")
  | .list xs => !xs.isEmpty
  | .dict es => !es.isEmpty

/-- Python `d[k]` for a string key: a dict lookup that raises (`.error`) on a
missing key or a non-dict receiver. -/
def pySubscript : PyVal → String → Except Unit PyVal
  | .dict es, k =>
      match es.find? (fun e => e.1 == k) with
      | some e => .ok e.2
      | Option.none => .error ()
  | _, _ => .error ()

/-- Python `d.get(k, default)`: returns the default on a missing key, raises
(`AttributeError`) when the receiver is not a dict. -/
def pyGetD (v : PyVal) (k : String) (d : PyVal) : Except Unit PyVal :=
  match v with
  | .dict es =>
      match es.find? (fun e => e.1 == k) with
      | some e => .ok e.2
      | Option.none => .ok d
  | _ => .error ()

/-- Python `xs[i]` on a list: raises on an out-of-range index or a non-list
receiver (the script only indexes list-shaped values here). -/
def pyIdx : PyVal → Nat → Except Unit PyVal
  | .list xs, i =>
      match xs.get? i with
      | some x => .ok x
      | Option.none => .error ()
  | _, _ => .error ()

/-- Boolean infix membership test `xs.contains`-style for the string `k` in a
list of `PyVal` elements (element equality against the string `k`). -/
def pyElemStr (xs : List PyVal) (k : String) : Bool :=
  xs.any (fun x => match x with | .str s => s == k | _ => false)

/-- Bounded substring test on character lists, used to model Python
`k in s` on strings. -/
def listInfixB (xs ys : List Char) : Bool :=
  (List.range (ys.length + 1)).any (fun i => xs.isPrefixOf (ys.drop i))

/-- Python `k in v` for a string `k`: key test on dicts, element test on
lists, substring test on strings, raises (`TypeError`) on `None`. -/
def pyContains (v : PyVal) (k : String) : Except Unit Bool :=
  match v with
  | .dict es => .ok (es.any (fun e => e.1 == k))
  | .list xs => .ok (pyElemStr xs k)
  | .str s => .ok (listInfixB k.toList s.toList)
  | .none => .error ()

/-- Python `str(v)` as used in the script's f-strings.  String values render
as themselves; the composite renderings are abstracted (every title that
reaches an f-string in this development is a string or the fixed
placeholder). -/
def pyStr : PyVal → String
  | .str s => s
  | .none => "None"
  | .list _ => "<list>"
  | .dict _ => "<dict>"

/-- Body of `get_page_title` (src/notion.py lines 57-64) before the
`except Exception` handler: the `try` block, with every Python operation that
can raise running in `Except Unit`. -/
def get_page_title_try (page : PyVal) : Except Unit PyVal := do
  let hasProps ← pyContains page "properties"
  if hasProps then
    let props ← pySubscript page "properties"
    let hasTitle ← pyContains props "title"
    if hasTitle then
      let title_info ← pySubscript props "title"
      match title_info with
      | .list (x :: _) => do
          -- isinstance(title_info, list) and title_info
          let t ← pyGetD x "text" (.dict [])
          pyGetD t "content" (.str "Untitled")
      | _ => do
          -- empty list or non-list: title_info.get('title', [{}])[0]...
          let lst ← pyGetD title_info "title" (.list [.dict []])
          let x0 ← pyIdx lst 0
          let t ← pyGetD x0 "text" (.dict [])
          pyGetD t "content" (.str "Untitled")
    else
      pure (.str "Untitled")
  else
    pure (.str "Untitled")

/-- `get_page_title` (src/notion.py lines 55-66): the `try` body with the
`except Exception: return 'Untitled'` handler wrapped around it. -/
def get_page_title (page : PyVal) : PyVal :=
  match get_page_title_try page with
  | .ok v => v
  | .error _ => .str "Untitled"

-- Concrete page shapes used by the title-extraction claim.

/-- Page whose `properties.title` is a direct rich-text list with the given
content string. -/
def richTextPage (c : String) : PyVal :=
  .dict [("id", .str "p1"),
         ("properties", .dict [("title",
            .list [.dict [("text", .dict [("content", .str c)])]])])]

/-- Page whose `properties.title` is the nested property form
`{'title': [{'text': {'content': c}}]}`. -/
def nestedTitlePage (c : String) : PyVal :=
  .dict [("id", .str "p2"),
         ("properties", .dict [("title",
            .dict [("title",
              .list [.dict [("text", .dict [("content", .str c)])]])])])]

/-- Page carrying a `properties` dict with no `title` field. -/
def missingTitlePage : PyVal :=
  .dict [("id", .str "p3"), ("properties", .dict [("other", .str "x")])]

/-! ## Tree builder: `get_all_pages` (src/notion.py lines 68-119)

The network/pagination loop of the first pass is a collaborator; its result is
the drained flat list of page objects, which the embedding takes as input.
What the first pass does with each page (src/notion.py lines 85-91) and the
whole second pass (lines 106-116) are embedded below.  The info dicts
`{'page': ..., 'children': [], 'parent_id': ...}` become `PageInfo`; the
mutable `children` lists are derived from the final map by `childrenOf`
(an entry is appended to `page_dict[parent_id]['children']` exactly when its
`parent_id` is truthy and present as a key). -/

/-- One value of the `page_dict` map: the page object, its key in the map
(`page['id']`, a string or `None` in this value universe), and the extracted
parent identifier `page.get('parent', {}).get('page_id')`. -/
structure PageInfo where
  key : Option String
  page : PyVal
  parentId : PyVal

/-- The parent-identifier extraction of the first pass
(src/notion.py line 90): `page.get('parent', {}).get('page_id')`. -/
def extractParentId (page : PyVal) : Except Unit PyVal := do
  let par ← pyGetD page "parent" (.dict [])
  pyGetD par "page_id" PyVal.none

/-- Build the `page_dict` value for one page (src/notion.py lines 87-91):
`page['id']` raises on a missing key; a key outside the hashable values of
this universe (a list or dict id) raises as Python's `TypeError` would. -/
def mkInfo (page : PyVal) : Except Unit PageInfo := do
  let idv ← pySubscript page "id"
  let k ← match idv with
    | .str s => Except.ok (some s)
    | .none => Except.ok (Option.none)
    | _ => Except.error ()
  let pid ← extractParentId page
  .ok ⟨k, page, pid⟩

/-- Python dict assignment `page_dict[k] = v`: replace the entry in place when
the key is present (keeping its original position in iteration order), append
at the end otherwise.  The maps built here always carry pairwise-distinct
keys, so replacing the first occurrence is the dict semantics. -/
def dictInsert : List PageInfo → PageInfo → List PageInfo
  | [], i => [i]
  | e :: m, i => if e.key == i.key then i :: m else e :: dictInsert m i

/-- First pass of `get_all_pages` (src/notion.py lines 84-104) over the
drained page list: build `page_dict` in input order. -/
def firstPass : List PyVal → List PageInfo → Except Unit (List PageInfo)
  | [], m => .ok m
  | p :: ps, m => do
      let i ← mkInfo p
      firstPass ps (dictInsert m i)

/-- Second pass of `get_all_pages` (src/notion.py lines 107-114), collecting
`root_pages`: an entry with a falsy `parent_id` is appended to the root list;
a truthy `parent_id` is looked up among the keys (which raises on an
unhashable value, as `parent_id in page_dict` would) and the entry is — when
present — appended to the parent's children (derived below), never to the
roots.  A truthy `parent_id` absent from the map falls into neither list. -/
def rootsAux (m : List PageInfo) : List PageInfo → List PageInfo → Except Unit (List PageInfo)
  | [], acc => .ok acc
  | i :: rest, acc =>
      if pyTruthy i.parentId then
        match i.parentId with
        | .str _ => rootsAux m rest acc
        | _ => .error ()
      else
        rootsAux m rest (acc ++ [i])

/-- The `root_pages` list of the second pass, iterating the finished map. -/
def rootsOf (m : List PageInfo) : Except Unit (List PageInfo) :=
  rootsAux m m []

/-- `get_all_pages` on the drained page list: the returned `root_pages`
together with the finished `page_dict` (the heap through which the root
infos reference their children). -/
def get_all_pages (pages : List PyVal) : Except Unit (List PageInfo × List PageInfo) := do
  let m ← firstPass pages []
  let roots ← rootsOf m
  .ok (m, roots)

/-- The key under which a truthy, hashable `parent_id` is looked up in
`page_dict`: `some s` exactly for a nonempty string value. -/
def childKey : PyVal → Option String
  | .str s => if s == "" then Option.none else some s
  | _ => Option.none

/-- The final `children` list of a map entry (src/notion.py line 112): every
entry of the map, in map order, whose truthy `parent_id` equals this entry's
key. -/
def childrenOf (m : List PageInfo) (i : PageInfo) : List PageInfo :=
  match i.key with
  | some k => m.filter (fun c => childKey c.parentId == some k)
  | Option.none => []

/-- Number of nodes of the subtree hanging off one info dict in the finished
object graph, unfolded `fuel` levels deep (any `fuel` bounding the forest
depth — `m.length` always does for acyclic inputs — gives the true count). -/
def subtreeCount (m : List PageInfo) : Nat → PageInfo → Nat
  | 0, _ => 1
  | fuel + 1, i => 1 + ((childrenOf m i).map (subtreeCount m fuel)).sum

/-- Number of nodes carrying key `k` in the subtree hanging off one info
dict, unfolded `fuel` levels deep. -/
def subtreeOcc (m : List PageInfo) (k : Option String) : Nat → PageInfo → Nat
  | 0, i => if i.key == k then 1 else 0
  | fuel + 1, i =>
      (if i.key == k then 1 else 0) + ((childrenOf m i).map (subtreeOcc m k fuel)).sum

/-- The map entry a child is appended to: the first map entry whose key
matches the child's truthy string `parent_id`, if any. -/
def parentEntry (m : List PageInfo) (i : PageInfo) : Option PageInfo :=
  match childKey i.parentId with
  | some s => m.find? (fun p => p.key == some s)
  | Option.none => Option.none

/-- Iterated parent lookup: the `d`-th ancestor of an entry in the object
graph, if the parent chain is defined that far. -/
def ancestorAt (m : List PageInfo) : Nat → PageInfo → Option PageInfo
  | 0, i => some i
  | d + 1, i => (ancestorAt m d i).bind (parentEntry m)

/-! ## Destination model and mirror writer

`create_folder` (src/notion.py lines 26-53), `backup_page` (lines 121-167)
and `run_backup` (lines 169-198) run against the Google Drive service.  The
service itself is external; it is modelled from the spec: a store of files
and folders where a files().list query with the script's exact-match filter
returns the matching non-trashed folders, and files().create appends a new
object under a fresh identifier.  Transport failures of the external calls
are injected through boolean oracles (`Env`), keyed by the page whose backup
step performs the call; the current date and timestamp are parameters. -/

/-- One object in the modelled Drive store. -/
structure DriveFile where
  fid : String
  name : String
  parent : String
  isFolder : Bool
  trashed : Bool
deriving DecidableEq

/-- Modelled from the spec: the destination store, with a counter supplying
fresh identifiers for created objects. -/
structure DriveState where
  files : List DriveFile
  counter : Nat
deriving DecidableEq

/-- Modelled from the spec: the files().list query of `create_folder`
(src/notion.py line 30) — exact name + parent + folder type match, excluding
trashed objects, in store order. -/
def folderQuery (d : DriveState) (name parent : String) : List DriveFile :=
  d.files.filter (fun f => f.name == name && f.parent == parent && f.isFolder && !f.trashed)

/-- Fresh identifier for the next created Drive object. -/
def freshId (d : DriveState) : String :=
  "drive-id-" ++ toString d.counter

/-- `create_folder` (src/notion.py lines 26-53): return the identifier of the
first query match if one exists, otherwise create the folder and return its
new identifier. -/
def create_folder (name parent : String) (d : DriveState) : String × DriveState :=
  match folderQuery d name parent with
  | f :: _ => (f.fid, d)
  | [] =>
      let fid := freshId d
      (fid, ⟨d.files ++ [⟨fid, name, parent, true, false⟩], d.counter + 1⟩)

/-- Modelled from the spec: the files().create upload of one content artifact
(src/notion.py lines 149-153) into the given parent folder. -/
def uploadFile (name parent : String) (d : DriveState) : DriveState :=
  ⟨d.files ++ [⟨freshId d, name, parent, false, false⟩], d.counter + 1⟩

/-- Run parameters: the current date and timestamp (`datetime.now()`), and
injected transport failures of the external calls, keyed by the page being
processed — `folderFail` makes that page's own `create_folder` call raise,
`uploadFail` makes its content fetch/upload raise, `topFolderFail` makes the
creation of the timestamped top-level backup folder raise. -/
structure Env where
  today : String
  now : String
  folderFail : Option String → Bool
  uploadFail : Option String → Bool
  topFolderFail : Bool

/-- Mutable world of one run: the Drive store, the `folder_cache` map
written at src/notion.py line 131, and the console output. -/
structure World where
  drive : DriveState
  cache : List (Option String × String)
  log : List String

/-- Append one printed line to the console log. -/
def logLine (w : World) (s : String) : World :=
  ⟨w.drive, w.cache, w.log ++ [s]⟩

/-- The folder name computed for one page (src/notion.py line 129):
`f"{page_title}_{datetime.now().strftime('%Y%m%d')}"`. -/
def folderNameOf (env : Env) (i : PageInfo) : String :=
  pyStr (get_page_title i.page) ++ "_" ++ env.today

/-- The content-artifact name for one page (src/notion.py line 138). -/
def artifactNameOf (env : Env) (i : PageInfo) : String :=
  pyStr (get_page_title i.page) ++ "_content_" ++ env.now ++ ".json"

/-- The inner `try` of `backup_page` (src/notion.py lines 134-155): fetch the
page content and upload it as one artifact; on an injected failure, print the
error line instead — the exception does not escape. -/
def backupContentStep (env : Env) (i : PageInfo) (folderId : String) (w : World) : World :=
  if env.uploadFail i.key then
    logLine w ("Error backing up content for page '" ++ pyStr (get_page_title i.page) ++ "'")
  else
    let w := logLine w ("Uploading content for page '" ++ pyStr (get_page_title i.page) ++ "'...")
    ⟨uploadFile (artifactNameOf env i) folderId w.drive, w.cache, w.log⟩

/-- One iteration of the `for child_info in page_info['children']` loop of
`backup_page` (src/notion.py lines 158-162), abstracted over the recursive
call `f`: attempt the child; on failure print the error line and continue. -/
def childStep (f : PageInfo → World → World × Except String String)
    (w : World) (c : PageInfo) : World :=
  let res := f c w
  match res.2 with
  | .ok _ => res.1
  | .error e => logLine res.1 ("Error backing up child page: " ++ e)

/-- `backup_page` (src/notion.py lines 121-167) on the finished object graph,
unfolded `fuel` levels deep (`fuel` at least the forest depth reproduces the
recursion; the run uses `m.length`, which bounds the depth of every acyclic
graph).  Returns the run's world and either the computed folder name
(`return folder_name`) or the message of the exception re-raised by the
outer handler.  The per-child `try` (lines 158-162) turns a child failure
into a printed line and continues with the next child. -/
def backup_page (env : Env) (m : List PageInfo) :
    Nat → PageInfo → String → World → World × Except String String
  | fuel, i, parentFolderId, w =>
    if env.folderFail i.key then
      (w, .error ("Failed to backup page '" ++ pyStr (get_page_title i.page) ++ "'"))
    else
      let cf := create_folder (folderNameOf env i) parentFolderId w.drive
      let w2 := backupContentStep env i cf.1 ⟨cf.2, w.cache ++ [(i.key, cf.1)], w.log⟩
      match fuel with
      | 0 => (w2, .ok (folderNameOf env i))
      | fuel + 1 =>
          ((childrenOf m i).foldl
              (childStep (fun c wa => backup_page env m fuel c cf.1 wa)) w2,
           .ok (folderNameOf env i))

/-- The whole children loop of `backup_page` at one recursion depth: the
fold of `childStep` over a children list. -/
def backupChildren (env : Env) (m : List PageInfo) (fuel : Nat) (fid : String)
    (cs : List PageInfo) (w : World) : World :=
  cs.foldl (childStep (fun c wa => backup_page env m fuel c fid wa)) w

/-- The body of the per-root loop of `run_backup` (src/notion.py lines
183-190): attempt one root, count a success or a failure and print the
corresponding line. -/
def rootStep (env : Env) (m : List PageInfo) (fuel : Nat) (topId : String) (total : Nat)
    (acc : World × Nat × Nat × Nat) (r : PageInfo) : World × Nat × Nat × Nat :=
  let res := backup_page env m fuel r topId acc.1
  match res.2 with
  | .ok fname =>
      (logLine res.1 ("[" ++ toString acc.2.1 ++ "/" ++ toString total ++ "] Backed up: " ++ fname),
       acc.2.1 + 1, acc.2.2.1 + 1, acc.2.2.2)
  | .error e =>
      (logLine res.1 ("Error backing up root page " ++ toString acc.2.1 ++ ": " ++ e),
       acc.2.1 + 1, acc.2.2.1, acc.2.2.2 + 1)

/-- `run_backup` (src/notion.py lines 169-198).  Returns the final world and
`some (successful_backups, failed_backups)` when the run reaches its summary,
`none` when the whole backup aborts through the outer handler (a failure of
`get_all_pages` or of the top-level folder creation). -/
def run_backup (env : Env) (pages : List PyVal) (rootFolderId : String) (w : World) :
    World × Option (Nat × Nat) :=
  let w0 := logLine w "Starting Notion backup..."
  match get_all_pages pages with
  | .error _ => (logLine w0 "Backup failed: Failed to fetch Notion pages", Option.none)
  | .ok (m, roots) =>
      let w1 := logLine w0 ("Found " ++ toString roots.length ++ " root pages")
      if env.topFolderFail then
        (logLine w1 "Backup failed: Failed to create folder", Option.none)
      else
        let topName := "Notion_Backup_" ++ env.now
        let cf := create_folder topName rootFolderId w1.drive
        let w2 : World := ⟨cf.2, w1.cache, w1.log⟩
        let res := roots.foldl (rootStep env m m.length cf.1 roots.length) (w2, 1, 0, 0)
        let w3 := res.1
        let succ := res.2.2.1
        let fail := res.2.2.2
        let w4 := logLine (logLine (logLine (logLine w3
            "Backup completed!")
            ("Successfully backed up: " ++ toString succ ++ " root pages and their subpages"))
            ("Failed to backup: " ++ toString fail ++ " root pages"))
            ("Backup folder: " ++ topName)
        (w4, some (succ, fail))

/-- Count of non-trashed folders directly under the given parent. -/
def foldersUnder (d : DriveState) (parent : String) : Nat :=
  (d.files.filter (fun f => f.parent == parent && f.isFolder && !f.trashed)).length

/-- Count of uploaded content artifacts (non-folder objects) in the store. -/
def artifactTotal (d : DriveState) : Nat :=
  (d.files.filter (fun f => !f.isFolder)).length

/-! ## Characterization of the second pass -/

/-- On a successful second pass the accumulated root list is the falsy-parent
entries of the iterated list, in map order, after the accumulator. -/
theorem rootsAux_ok (m : List PageInfo) :
    ∀ (l acc r : List PageInfo), rootsAux m l acc = .ok r →
      r = acc ++ l.filter (fun i => !pyTruthy i.parentId) := by
  intro l
  induction l with
  | nil =>
      intro acc r h
      simp only [rootsAux] at h
      cases h
      simp
  | cons i rest ih =>
      intro acc r h
      simp only [rootsAux] at h
      by_cases ht : pyTruthy i.parentId
      · rw [if_pos ht] at h
        cases hp : i.parentId with
        | str s =>
            rw [hp] at h
            have := ih acc r h
            simp [List.filter_cons, ht, this]
        | none => rw [hp] at h; simp at h
        | list xs => rw [hp] at h; simp at h
        | dict es => rw [hp] at h; simp at h
      · rw [if_neg ht] at h
        have := ih (acc ++ [i]) r h
        simp [List.filter_cons, ht, this]

/-- On a successful second pass every truthy parent identifier in the
iterated list is a (nonempty) string: any other truthy value would have made
the key lookup raise. -/
theorem rootsAux_ok_str (m : List PageInfo) :
    ∀ (l acc r : List PageInfo), rootsAux m l acc = .ok r →
      ∀ i ∈ l, pyTruthy i.parentId = true → ∃ s, i.parentId = PyVal.str s := by
  intro l
  induction l with
  | nil => intro acc r _ i him; exact absurd him (by simp)
  | cons j rest ih =>
      intro acc r h i him ht
      simp only [rootsAux] at h
      rcases List.mem_cons.mp him with rfl | hmem
      · rw [if_pos ht] at h
        cases hp : i.parentId with
        | str s => exact ⟨s, rfl⟩
        | none => rw [hp] at h; simp at h
        | list xs => rw [hp] at h; simp at h
        | dict es => rw [hp] at h; simp at h
      · by_cases htj : pyTruthy j.parentId
        · rw [if_pos htj] at h
          cases hp : j.parentId with
          | str s => rw [hp] at h; exact ih acc r h i hmem ht
          | none => rw [hp] at h; simp at h
          | list xs => rw [hp] at h; simp at h
          | dict es => rw [hp] at h; simp at h
        · rw [if_neg htj] at h
          exact ih (acc ++ [j]) r h i hmem ht

/-- Inversion of a successful `get_all_pages` run: the first pass produced
the map, the second pass succeeded, and the returned root list is exactly the
falsy-parent entries of the map in map order. -/
theorem get_all_pages_ok {pages : List PyVal} {m roots : List PageInfo}
    (h : get_all_pages pages = .ok (m, roots)) :
    firstPass pages [] = .ok m ∧ rootsOf m = .ok roots ∧
      roots = m.filter (fun i => !pyTruthy i.parentId) := by
  simp only [get_all_pages] at h
  cases hf : firstPass pages [] with
  | error e => rw [hf] at h; exact Except.noConfusion h
  | ok m0 =>
      rw [hf] at h
      have h2 : (do
          let roots ← rootsOf m0
          Except.ok (m0, roots) : Except Unit (List PageInfo × List PageInfo))
            = .ok (m, roots) := h
      cases hr : rootsOf m0 with
      | error e => rw [hr] at h2; exact Except.noConfusion h2
      | ok r0 =>
          rw [hr] at h2
          have h3 : (Except.ok (m0, r0) : Except Unit (List PageInfo × List PageInfo))
              = .ok (m, roots) := h2
          simp only [Except.ok.injEq, Prod.mk.injEq] at h3
          obtain ⟨hm, hrts⟩ := h3
          subst hm; subst hrts
          exact ⟨rfl, hr, rootsAux_ok m0 m0 [] r0 hr⟩

/-- After a successful run, every truthy parent identifier in the map is a
string value. -/
theorem get_all_pages_ok_str {pages : List PyVal} {m roots : List PageInfo}
    (h : get_all_pages pages = .ok (m, roots)) :
    ∀ i ∈ m, pyTruthy i.parentId = true → ∃ s, i.parentId = PyVal.str s := by
  obtain ⟨_, hr, _⟩ := get_all_pages_ok h
  exact rootsAux_ok_str m m [] roots hr

/-- A truthy-string parent identifier is exactly a `childKey` hit. -/
theorem childKey_eq_some {v : PyVal} {s : String} (h : childKey v = some s) :
    v = PyVal.str s ∧ s ≠ "" := by
  cases v with
  | str t =>
      by_cases ht : (t == "")
      · simp [childKey, ht] at h
      · simp [childKey, ht] at h
        subst h
        exact ⟨rfl, by simpa using ht⟩
  | none => simp [childKey] at h
  | list xs => simp [childKey] at h
  | dict es => simp [childKey] at h

/-! ## Claim C6: title extraction is total and falls back to the placeholder -/

/-- C6: `get_page_title` is total and never raises: a well-formed rich-text
list yields its content string, the nested property structure yields its
content string, an empty mapping and a page with a `properties` dict missing
the `title` field both yield the fixed placeholder `'Untitled'`, and whenever
the `try` body raises, the handler returns the placeholder instead of
propagating. -/
theorem get_page_title_total_spec :
    (∀ c, get_page_title (richTextPage c) = .str c) ∧
    (∀ c, get_page_title (nestedTitlePage c) = .str c) ∧
    get_page_title (.dict []) = .str "Untitled" ∧
    get_page_title missingTitlePage = .str "Untitled" ∧
    (∀ page, get_page_title_try page = .error () → get_page_title page = .str "Untitled") := by
  refine ⟨fun c => rfl, fun c => rfl, rfl, rfl, fun page h => ?_⟩
  simp [get_page_title, h]

/-- Witness for C6 at concrete inputs: a rich-text page titled `T`, and the
raising input `None` (Python `'properties' in None` raises `TypeError`),
which the handler turns into the placeholder. -/
theorem get_page_title_total_spec_witness :
    get_page_title (richTextPage "T") = .str "T" ∧
    get_page_title PyVal.none = .str "Untitled" :=
  ⟨get_page_title_total_spec.1 "T",
   get_page_title_total_spec.2.2.2.2 PyVal.none rfl⟩

/-! ## Claims C1 and C3: concrete inputs -/

/-- Record with no parent field at all (a root page). -/
def rootPageW : PyVal :=
  .dict [("id", .str "r"),
         ("properties", .dict [("title", .list [.dict [("text", .dict [("content", .str "R")])]])])]

/-- Record whose parent identifier refers to an identifier (`"zz"`) that is
not present in the fetched set. -/
def orphanPageW : PyVal :=
  .dict [("id", .str "o"), ("parent", .dict [("page_id", .str "zz")])]

/-- C1 counterexample: a single record whose parent identifier (`"zz"`)
refers to an identifier not present in the fetched set.  The claim places it
in the forest's root list, but `get_all_pages` returns an empty root list
while the map still has the one record — the `else` at src/notion.py
line 113 belongs to the outer `if`, so an unresolvable truthy parent is
appended to neither list. -/
theorem get_all_pages_orphan_not_root :
    (get_all_pages [orphanPageW]).map Prod.snd = Except.ok [] ∧
    (get_all_pages [orphanPageW]).map (fun pr => pr.1.length) = Except.ok 1 :=
  ⟨rfl, rfl⟩

/-- C1 (amended): a record whose parent identifier is absent or empty (falsy)
is placed in the root list; a record whose parent identifier refers to an
identifier not present in the fetched set is silently omitted — it is neither
a root nor any entry's child. -/
theorem get_all_pages_root_placement :
    ∀ (pages : List PyVal) (m roots : List PageInfo),
      get_all_pages pages = .ok (m, roots) → ∀ i ∈ m,
      (pyTruthy i.parentId = false → i ∈ roots) ∧
      (∀ s, childKey i.parentId = some s → (∀ p ∈ m, p.key ≠ some s) →
        i ∉ roots ∧ ∀ p ∈ m, i ∉ childrenOf m p) := by
  intro pages m roots hok i him
  obtain ⟨hfp, hro, hfilter⟩ := get_all_pages_ok hok
  constructor
  · intro hf
    rw [hfilter]
    exact List.mem_filter.mpr ⟨him, by simp [hf]⟩
  · intro s hck habs
    obtain ⟨hpid, hne⟩ := childKey_eq_some hck
    have htr : pyTruthy i.parentId = true := by
      rw [hpid]; simpa [pyTruthy] using hne
    constructor
    · intro hmem
      rw [hfilter] at hmem
      have := (List.mem_filter.mp hmem).2
      rw [htr] at this
      simp at this
    · intro p hp hmem
      cases hpk : p.key with
      | none => rw [childrenOf, hpk] at hmem; exact absurd hmem (by simp)
      | some k =>
          rw [childrenOf, hpk] at hmem
          have hpred := (List.mem_filter.mp hmem).2
          have hk : childKey i.parentId = some k := by
            simpa using hpred
          rw [hck] at hk
          have : k = s := by simpa using hk.symm
          subst this
          exact habs p hp hpk

/-- The map built from `[rootPageW, orphanPageW]`. -/
def mC1 : List PageInfo :=
  [⟨some "r", rootPageW, PyVal.none⟩, ⟨some "o", orphanPageW, PyVal.str "zz"⟩]

/-- The root list built from `[rootPageW, orphanPageW]`. -/
def rootsC1 : List PageInfo := [⟨some "r", rootPageW, PyVal.none⟩]

/-- Witness for the amended C1 at a concrete input: the parentless record is
a root and the orphan record is not. -/
theorem get_all_pages_root_placement_witness :
    (⟨some "r", rootPageW, PyVal.none⟩ : PageInfo) ∈ rootsC1 ∧
    (⟨some "o", orphanPageW, PyVal.str "zz"⟩ : PageInfo) ∉ rootsC1 := by
  have h := get_all_pages_root_placement [rootPageW, orphanPageW] mC1 rootsC1 rfl
  refine ⟨(h ⟨some "r", rootPageW, PyVal.none⟩ (by simp [mC1])).1 rfl, ?_⟩
  refine ((h ⟨some "o", orphanPageW, PyVal.str "zz"⟩ (by simp [mC1])).2 "zz" rfl ?_).1
  intro p hp
  simp only [mC1, List.mem_cons, List.mem_singleton] at hp
  rcases hp with rfl | rfl | h2
  · simp
  · simp
  · exact absurd h2 (by simp)

/-! ## Claim C10: a parent field without a page identifier means root -/

/-- C10: when a record's parent field exists but carries no `page_id` key
(e.g. a workspace-parented page), the extracted parent identifier is `None`,
and any map entry whose extracted parent identifier is `None` is placed in
the root list — exactly like a record with no parent field at all. -/
theorem parent_without_page_id_is_root :
    (∀ (page : PyVal) (pentries : List (String × PyVal)),
        pyGetD page "parent" (.dict []) = .ok (.dict pentries) →
        (∀ e ∈ pentries, e.1 ≠ "page_id") →
        extractParentId page = .ok PyVal.none) ∧
    (∀ (pages : List PyVal) (m roots : List PageInfo),
        get_all_pages pages = .ok (m, roots) →
        ∀ i ∈ m, i.parentId = PyVal.none → i ∈ roots) := by
  constructor
  · intro page pentries hpar hno
    have hfind : pentries.find? (fun e => e.1 == "page_id") = Option.none := by
      rw [List.find?_eq_none]
      intro e he
      simpa using hno e he
    simp only [extractParentId, hpar]
    show pyGetD (.dict pentries) "page_id" PyVal.none = .ok PyVal.none
    simp [pyGetD, hfind]
  · intro pages m roots hok i him hnone
    obtain ⟨_, _, hfilter⟩ := get_all_pages_ok hok
    rw [hfilter]
    exact List.mem_filter.mpr ⟨him, by simp [hnone, pyTruthy]⟩

/-- Record whose parent field is a workspace parent: the `parent` dict exists
but has no `page_id` key. -/
def workspacePageW : PyVal :=
  .dict [("id", .str "w"),
         ("parent", .dict [("type", .str "workspace"), ("workspace", .str "true")])]

/-- Witness for C10: the workspace-parented record extracts parent `None`
and lands in the root list. -/
theorem parent_without_page_id_is_root_witness :
    extractParentId workspacePageW = .ok PyVal.none ∧
    (⟨some "w", workspacePageW, PyVal.none⟩ : PageInfo)
      ∈ [(⟨some "w", workspacePageW, PyVal.none⟩ : PageInfo)] := by
  constructor
  · exact parent_without_page_id_is_root.1 workspacePageW
      [("type", .str "workspace"), ("workspace", .str "true")] rfl
      (by intro e he
          simp only [List.mem_cons, List.not_mem_nil, or_false] at he
          rcases he with rfl | rfl <;> simp)
  · exact parent_without_page_id_is_root.2 [workspacePageW]
      [⟨some "w", workspacePageW, PyVal.none⟩]
      [⟨some "w", workspacePageW, PyVal.none⟩] rfl
      ⟨some "w", workspacePageW, PyVal.none⟩ (by simp) rfl

/-! ## Claim C7: duplicate identifiers are resolved last-wins -/

/-- The last successfully converted input record carrying the given
identifier, i.e. the record Python dict assignment retains after
`page_dict[page['id']] = ...` over the whole input. -/
def lastInfoWith (pages : List PyVal) (k : Option String) : Option PageInfo :=
  pages.reverse.findSome? (fun p =>
    match (mkInfo p).toOption with
    | some i => if i.key == k then some i else Option.none
    | Option.none => Option.none)

/-- Looking a key up after a dict assignment: the assigned entry if the key
matches, the previous map's entry otherwise. -/
theorem find?_dictInsert (m : List PageInfo) (i : PageInfo) (k : Option String) :
    (dictInsert m i).find? (fun e => e.key == k)
      = if i.key = k then some i else m.find? (fun e => e.key == k) := by
  induction m with
  | nil =>
      by_cases hik : i.key = k
      · simp [dictInsert, List.find?, beq_iff_eq.mpr hik, hik]
      · simp [dictInsert, List.find?, beq_eq_false_iff_ne.mpr hik, hik]
  | cons e m ih =>
      by_cases he : e.key = i.key
      · have hbe : (e.key == i.key) = true := beq_iff_eq.mpr he
        by_cases hik : i.key = k
        · simp [dictInsert, List.find?, hbe, beq_iff_eq.mpr (he.trans hik), hik]
        · have hek : ¬ e.key = k := fun h => hik (he.symm.trans h)
          simp [dictInsert, List.find?, hbe, beq_eq_false_iff_ne.mpr hek, hik]
      · have hbe : (e.key == i.key) = false := beq_eq_false_iff_ne.mpr he
        by_cases hek : e.key = k
        · have hik : ¬ i.key = k := fun h => he (hek.trans h.symm)
          simp [dictInsert, List.find?, hbe, beq_iff_eq.mpr hek, hik]
        · by_cases hik : i.key = k <;>
            simp [dictInsert, List.find?, hbe, beq_eq_false_iff_ne.mpr hek, hik, ih]

/-- After a successful first pass over `pages`, the map entry for any key is
the last input record with that identifier, falling back to the starting
accumulator's entry. -/
theorem firstPass_find? :
    ∀ (pages : List PyVal) (m0 m : List PageInfo), firstPass pages m0 = .ok m →
      ∀ k, m.find? (fun e => e.key == k)
        = (lastInfoWith pages k).or (m0.find? (fun e => e.key == k)) := by
  intro pages
  induction pages with
  | nil =>
      intro m0 m h k
      simp only [firstPass] at h
      cases h
      simp [lastInfoWith]
  | cons p ps ih =>
      intro m0 m h k
      simp only [firstPass] at h
      cases hmk : mkInfo p with
      | error e => rw [hmk] at h; exact Except.noConfusion h
      | ok i =>
          rw [hmk] at h
          have h2 : firstPass ps (dictInsert m0 i) = .ok m := h
          rw [ih (dictInsert m0 i) m h2 k, find?_dictInsert]
          have hlw : lastInfoWith (p :: ps) k
              = (lastInfoWith ps k).or
                  (if i.key = k then some i else Option.none) := by
            simp only [lastInfoWith, List.reverse_cons, List.findSome?_append]
            by_cases hik : i.key = k
            · simp [List.findSome?, hmk, Except.toOption, beq_iff_eq.mpr hik, hik]
            · simp [List.findSome?, hmk, Except.toOption, beq_eq_false_iff_ne.mpr hik, hik]
          rw [hlw, Option.or_assoc]
          by_cases hik : i.key = k
          · simp [hik]
          · simp [hik]

/-- C7: with duplicate identifiers in the input, the identifier-to-record map
built by the first pass keeps the last record seen for each identifier
(last-wins), and the second, hierarchy-building pass consumes exactly this
map (its root list is the falsy-parent entries of this map in map order). -/
theorem page_dict_last_wins :
    ∀ (pages : List PyVal) (m roots : List PageInfo),
      get_all_pages pages = .ok (m, roots) →
      (∀ k, m.find? (fun e => e.key == k) = lastInfoWith pages k) ∧
      roots = m.filter (fun i => !pyTruthy i.parentId) := by
  intro pages m roots hok
  obtain ⟨hfp, _, hfilter⟩ := get_all_pages_ok hok
  refine ⟨fun k => ?_, hfilter⟩
  have h := firstPass_find? pages [] m hfp k
  simpa using h

/-- First record of the duplicated-identifier witness input. -/
def dupPage1 : PyVal :=
  .dict [("id", .str "x"),
         ("properties", .dict [("title", .list [.dict [("text", .dict [("content", .str "First")])]])])]

/-- Second record of the duplicated-identifier witness input, same id. -/
def dupPage2 : PyVal :=
  .dict [("id", .str "x"),
         ("properties", .dict [("title", .list [.dict [("text", .dict [("content", .str "Second")])]])])]

/-- Witness for C7: two input records share the identifier `"x"`; the map
retains the second one. -/
theorem page_dict_last_wins_witness :
    [(⟨some "x", dupPage2, PyVal.none⟩ : PageInfo)].find? (fun e => e.key == some "x")
      = some ⟨some "x", dupPage2, PyVal.none⟩ := by
  have h := (page_dict_last_wins [dupPage1, dupPage2]
      [⟨some "x", dupPage2, PyVal.none⟩] [⟨some "x", dupPage2, PyVal.none⟩] rfl).1 (some "x")
  exact h.trans rfl

/-! ## Claim C8: container creation is find-or-create -/

/-- A destination state that already carries two same-named sibling folders
(e.g. left behind by two racing past runs, see spec section 5). -/
def dupDriveState : DriveState :=
  ⟨[⟨"id1", "N", "P", true, false⟩, ⟨"id2", "N", "P", true, false⟩], 0⟩

/-- C8 counterexample: from a destination state that already holds two
matching non-trashed containers, invoking `create_folder` twice with the same
name and parent does not leave exactly one matching container — both
duplicates survive, the claim's count of one fails. -/
theorem create_folder_duplicate_state_cx :
    (folderQuery ((create_folder "N" "P"
        ((create_folder "N" "P" dupDriveState).2)).2) "N" "P").length ≠ 1 := by
  decide

/-- C8 (amended): invoking `create_folder` twice with the same name and
parent returns the same identifier both times and leaves the state of the
first call unchanged; after the first call at least one matching non-trashed
container exists, and no duplicate is ever added (the matching count is the
old count, or one when there was none); the per-node container name is the
node's title joined with the current date, so a same-day rerun with the same
title reuses the container found by exact name+parent match. -/
theorem create_folder_reuses_existing :
    ∀ (name parent : String) (d : DriveState) (env : Env) (i : PageInfo),
      (create_folder name parent (create_folder name parent d).2).1
        = (create_folder name parent d).1 ∧
      (create_folder name parent (create_folder name parent d).2).2
        = (create_folder name parent d).2 ∧
      1 ≤ (folderQuery (create_folder name parent d).2 name parent).length ∧
      (folderQuery (create_folder name parent d).2 name parent).length
        = max (folderQuery d name parent).length 1 ∧
      folderNameOf env i = pyStr (get_page_title i.page) ++ "_" ++ env.today := by
  intro name parent d env i
  cases h : folderQuery d name parent with
  | cons f rest =>
      have h1 : create_folder name parent d = (f.fid, d) := by
        simp [create_folder, h]
      refine ⟨?_, ?_, ?_, ?_, rfl⟩ <;> simp [h1, create_folder, h]
  | nil =>
      have h1 : create_folder name parent d
          = (freshId d, ⟨d.files ++ [⟨freshId d, name, parent, true, false⟩], d.counter + 1⟩) := by
        simp [create_folder, h]
      have hq2 : folderQuery
            (⟨d.files ++ [⟨freshId d, name, parent, true, false⟩], d.counter + 1⟩ : DriveState)
            name parent
          = [⟨freshId d, name, parent, true, false⟩] := by
        unfold folderQuery at h ⊢
        simp only [List.filter_append, h]
        simp
      refine ⟨?_, ?_, ?_, ?_, rfl⟩ <;> rw [h1] <;> simp [create_folder, hq2, h]

/-! ## Facts about the mirror writer -/

/-- A failed container creation for the node itself makes `backup_page`
return the re-raised exception and leave the world untouched: the node's
subtree is aborted. -/
theorem backup_page_fail (env : Env) (m : List PageInfo) (fuel : Nat) (i : PageInfo)
    (pfid : String) (w : World) (h : env.folderFail i.key = true) :
    backup_page env m fuel i pfid w
      = (w, .error ("Failed to backup page '" ++ pyStr (get_page_title i.page) ++ "'")) := by
  cases fuel <;> rw [backup_page] <;> simp [h]

/-- The returned value of `backup_page` depends only on the node's own
container creation: the computed folder name on success, the re-raised
exception on failure. -/
theorem backup_page_snd (env : Env) (m : List PageInfo) (fuel : Nat) (i : PageInfo)
    (pfid : String) (w : World) :
    (backup_page env m fuel i pfid w).2
      = if env.folderFail i.key
        then .error ("Failed to backup page '" ++ pyStr (get_page_title i.page) ++ "'")
        else .ok (folderNameOf env i) := by
  by_cases h : env.folderFail i.key <;> cases fuel <;> rw [backup_page] <;> simp [h]

/-- Unfolding of a successful `backup_page` at positive fuel: own folder,
content step, then the children loop. -/
theorem backup_page_succ_fst (env : Env) (m : List PageInfo) (fuel : Nat) (i : PageInfo)
    (pfid : String) (w : World) (h : env.folderFail i.key = false) :
    (backup_page env m (fuel + 1) i pfid w).1
      = backupChildren env m fuel (create_folder (folderNameOf env i) pfid w.drive).1
          (childrenOf m i)
          (backupContentStep env i (create_folder (folderNameOf env i) pfid w.drive).1
            ⟨(create_folder (folderNameOf env i) pfid w.drive).2,
             w.cache ++ [(i.key, (create_folder (folderNameOf env i) pfid w.drive).1)], w.log⟩) := by
  rw [backup_page]
  simp [h, backupChildren]

/-- The console line appended by the content step: the error line under an
injected upload failure, the progress line otherwise. -/
theorem backupContentStep_log (env : Env) (i : PageInfo) (fid : String) (w : World) :
    (backupContentStep env i fid w).log
      = w.log ++ [if env.uploadFail i.key
          then "Error backing up content for page '" ++ pyStr (get_page_title i.page) ++ "'"
          else "Uploading content for page '" ++ pyStr (get_page_title i.page) ++ "'..."] := by
  by_cases h : env.uploadFail i.key <;> simp [backupContentStep, h, logLine]

/-- A fold whose step only appends console lines only appends console
lines. -/
theorem foldl_log_ext {α : Type} (step : World → α → World)
    (hs : ∀ w c, ∃ ext, (step w c).log = w.log ++ ext) :
    ∀ (cs : List α) (w : World), ∃ ext, (cs.foldl step w).log = w.log ++ ext := by
  intro cs
  induction cs with
  | nil => intro w; exact ⟨[], by simp⟩
  | cons c cs ih =>
      intro w
      obtain ⟨e1, h1⟩ := hs w c
      obtain ⟨e2, h2⟩ := ih (step w c)
      exact ⟨e1 ++ e2, by simp [List.foldl_cons, h2, h1]⟩

/-- `backup_page` only appends to the console log. -/
theorem backup_page_log_ext (env : Env) (m : List PageInfo) :
    ∀ (fuel : Nat) (i : PageInfo) (pfid : String) (w : World),
      ∃ ext, (backup_page env m fuel i pfid w).1.log = w.log ++ ext := by
  intro fuel
  induction fuel with
  | zero =>
      intro i pfid w
      by_cases h : env.folderFail i.key
      · exact ⟨[], by simp [backup_page_fail env m 0 i pfid w h]⟩
      · rw [backup_page]
        rw [if_neg (by simp [h])]
        exact ⟨_, backupContentStep_log env i _ _⟩
  | succ fuel ih =>
      intro i pfid w
      by_cases h : env.folderFail i.key
      · exact ⟨[], by simp [backup_page_fail env m (fuel + 1) i pfid w h]⟩
      · rw [backup_page_succ_fst env m fuel i pfid w (by simpa using h), backupChildren]
        have hstep : ∀ (wa : World) (c : PageInfo),
            ∃ ext, (childStep (fun c wb =>
                backup_page env m fuel c
                  (create_folder (folderNameOf env i) pfid w.drive).1 wb) wa c).log
              = wa.log ++ ext := by
          intro wa c
          obtain ⟨e1, h1⟩ := ih c (create_folder (folderNameOf env i) pfid w.drive).1 wa
          unfold childStep
          cases hres : (backup_page env m fuel c
              (create_folder (folderNameOf env i) pfid w.drive).1 wa).2 with
          | ok v => exact ⟨e1, by simp [hres, h1]⟩
          | error e =>
              exact ⟨e1 ++ ["Error backing up child page: " ++ e], by
                simp [hres, logLine, h1]⟩
        obtain ⟨e2, h2⟩ := foldl_log_ext _ hstep (childrenOf m i) _
        rw [h2, backupContentStep_log]
        refine ⟨(if env.uploadFail i.key
            then "Error backing up content for page '" ++ pyStr (get_page_title i.page) ++ "'"
            else "Uploading content for page '" ++ pyStr (get_page_title i.page) ++ "'...") :: e2, ?_⟩
        simp

/-- Unfolding of a successful `backup_page` at fuel zero: own folder and
content step only. -/
theorem backup_page_zero_fst (env : Env) (m : List PageInfo) (i : PageInfo)
    (pfid : String) (w : World) (h : env.folderFail i.key = false) :
    (backup_page env m 0 i pfid w).1
      = backupContentStep env i (create_folder (folderNameOf env i) pfid w.drive).1
          ⟨(create_folder (folderNameOf env i) pfid w.drive).2,
           w.cache ++ [(i.key, (create_folder (folderNameOf env i) pfid w.drive).1)], w.log⟩ := by
  rw [backup_page]
  simp [h]

/-- The children loop only appends to the console log. -/
theorem backupChildren_log_ext (env : Env) (m : List PageInfo) (fuel : Nat)
    (fid : String) (cs : List PageInfo) (w : World) :
    ∃ ext, (backupChildren env m fuel fid cs w).log = w.log ++ ext := by
  rw [backupChildren]
  refine foldl_log_ext _ ?_ cs w
  intro wa c
  obtain ⟨e1, h1⟩ := backup_page_log_ext env m fuel c fid wa
  unfold childStep
  cases hres : (backup_page env m fuel c fid wa).2 with
  | ok v => exact ⟨e1, by simp [hres, h1]⟩
  | error e =>
      exact ⟨e1 ++ ["Error backing up child page: " ++ e], by simp [hres, logLine, h1]⟩

/-- C4: a failure while creating the node's own destination container
propagates to the caller with the node's subtree aborted and the world
untouched; with the node's own container created, `backup_page` reports
success no matter what the content upload and the child subtrees did; an
injected content-upload failure is logged at the node and does not propagate;
and the children loop processes a whole children list segment by segment, so
a failed child never stops its later siblings. -/
theorem backup_page_failure_isolation :
    ∀ (env : Env) (m : List PageInfo) (fuel : Nat) (i : PageInfo) (pfid : String) (w : World),
      (env.folderFail i.key = true →
        backup_page env m fuel i pfid w
          = (w, .error ("Failed to backup page '" ++ pyStr (get_page_title i.page) ++ "'"))) ∧
      (env.folderFail i.key = false →
        (backup_page env m fuel i pfid w).2 = .ok (folderNameOf env i)) ∧
      (env.folderFail i.key = false → env.uploadFail i.key = true →
        ("Error backing up content for page '" ++ pyStr (get_page_title i.page) ++ "'")
          ∈ (backup_page env m fuel i pfid w).1.log) ∧
      (∀ (fid : String) (cs1 cs2 : List PageInfo) (w0 : World),
        backupChildren env m fuel fid (cs1 ++ cs2) w0
          = backupChildren env m fuel fid cs2 (backupChildren env m fuel fid cs1 w0)) := by
  intro env m fuel i pfid w
  refine ⟨backup_page_fail env m fuel i pfid w,
    fun h => by rw [backup_page_snd]; simp [h],
    fun h hu => ?_,
    fun fid cs1 cs2 w0 => by simp [backupChildren, List.foldl_append]⟩
  cases fuel with
  | zero =>
      rw [backup_page_zero_fst env m i pfid w h, backupContentStep_log]
      simp [hu]
  | succ fuel =>
      rw [backup_page_succ_fst env m fuel i pfid w h]
      obtain ⟨ext, hext⟩ := backupChildren_log_ext env m fuel
        (create_folder (folderNameOf env i) pfid w.drive).1 (childrenOf m i)
        (backupContentStep env i (create_folder (folderNameOf env i) pfid w.drive).1
          ⟨(create_folder (folderNameOf env i) pfid w.drive).2,
           w.cache ++ [(i.key, (create_folder (folderNameOf env i) pfid w.drive).1)], w.log⟩)
      rw [hext, backupContentStep_log]
      simp [hu]

/-- Node whose injected container creation succeeds (uploads all fail). -/
def infoGoodW : PageInfo := ⟨some "g", richTextPage "G", PyVal.none⟩

/-- Node whose injected container creation fails. -/
def infoBadW : PageInfo := ⟨some "bad", richTextPage "X", PyVal.none⟩

/-- Environment for the C4 witness: the node keyed `"bad"` fails its folder
creation, every content upload fails. -/
def envC4 : Env := ⟨"D", "T", fun k => k == some "bad", fun _ => true, false⟩

/-- The empty starting world. -/
def wEmpty : World := ⟨⟨[], 0⟩, [], []⟩

/-- Witness for C4 at concrete inputs: the failing node aborts with the
world untouched; the succeeding node reports success even though its upload
failed, and the upload failure is logged. -/
theorem backup_page_failure_isolation_witness :
    backup_page envC4 [] 1 infoBadW "F" wEmpty
      = (wEmpty, .error ("Failed to backup page '" ++ pyStr (get_page_title infoBadW.page) ++ "'")) ∧
    (backup_page envC4 [] 1 infoGoodW "F" wEmpty).2 = .ok (folderNameOf envC4 infoGoodW) ∧
    ("Error backing up content for page '" ++ pyStr (get_page_title infoGoodW.page) ++ "'")
      ∈ (backup_page envC4 [] 1 infoGoodW "F" wEmpty).1.log :=
  ⟨(backup_page_failure_isolation envC4 [] 1 infoBadW "F" wEmpty).1 rfl,
   (backup_page_failure_isolation envC4 [] 1 infoGoodW "F" wEmpty).2.1 rfl,
   (backup_page_failure_isolation envC4 [] 1 infoGoodW "F" wEmpty).2.2.1 rfl rfl⟩

/-- One successful root iteration of the `run_backup` loop: print the
progress line, count a success. -/
theorem rootStep_ok (env : Env) (m : List PageInfo) (fuel : Nat) (topId : String)
    (total : Nat) (acc : World × Nat × Nat × Nat) (r : PageInfo)
    (h : env.folderFail r.key = false) :
    rootStep env m fuel topId total acc r
      = (logLine (backup_page env m fuel r topId acc.1).1
           ("[" ++ toString acc.2.1 ++ "/" ++ toString total ++ "] Backed up: "
             ++ folderNameOf env r),
         acc.2.1 + 1, acc.2.2.1 + 1, acc.2.2.2) := by
  simp [rootStep, backup_page_snd, h]

/-- One failed root iteration of the `run_backup` loop: print the error
line, count a failure, keep iterating. -/
theorem rootStep_err (env : Env) (m : List PageInfo) (fuel : Nat) (topId : String)
    (total : Nat) (acc : World × Nat × Nat × Nat) (r : PageInfo)
    (h : env.folderFail r.key = true) :
    rootStep env m fuel topId total acc r
      = (logLine (backup_page env m fuel r topId acc.1).1
           ("Error backing up root page " ++ toString acc.2.1 ++ ": "
             ++ ("Failed to backup page '" ++ pyStr (get_page_title r.page) ++ "'")),
         acc.2.1 + 1, acc.2.2.1, acc.2.2.2 + 1) := by
  simp [rootStep, backup_page_snd, h]

/-- The root loop counts exactly the roots whose own container creation
succeeded as successes and the rest as failures, regardless of anything that
happened below them. -/
theorem rootStep_foldl_counts (env : Env) (m : List PageInfo) (fuel : Nat)
    (topId : String) (total : Nat) :
    ∀ (roots : List PageInfo) (w : World) (idx s f : Nat),
      (roots.foldl (rootStep env m fuel topId total) (w, idx, s, f)).2.2.1
          = s + (roots.filter (fun r => !env.folderFail r.key)).length ∧
      (roots.foldl (rootStep env m fuel topId total) (w, idx, s, f)).2.2.2
          = f + (roots.filter (fun r => env.folderFail r.key)).length := by
  intro roots
  induction roots with
  | nil => intro w idx s f; simp
  | cons r rs ih =>
      intro w idx s f
      rw [List.foldl_cons]
      by_cases hr : env.folderFail r.key
      · rw [rootStep_err env m fuel topId total (w, idx, s, f) r hr]
        obtain ⟨h1, h2⟩ := ih (logLine (backup_page env m fuel r topId w).1
            ("Error backing up root page " ++ toString idx ++ ": "
              ++ ("Failed to backup page '" ++ pyStr (get_page_title r.page) ++ "'")))
          (idx + 1) s (f + 1)
        constructor
        · rw [h1]; simp [List.filter_cons, hr]
        · rw [h2]; simp [List.filter_cons, hr]; omega
      · have hr2 : env.folderFail r.key = false := by simpa using hr
        rw [rootStep_ok env m fuel topId total (w, idx, s, f) r hr2]
        obtain ⟨h1, h2⟩ := ih (logLine (backup_page env m fuel r topId w).1
            ("[" ++ toString idx ++ "/" ++ toString total ++ "] Backed up: "
              ++ folderNameOf env r))
          (idx + 1) (s + 1) f
        constructor
        · rw [h1]; simp [List.filter_cons, hr2]; omega
        · rw [h2]; simp [List.filter_cons, hr2]

/-- A `run_backup` that got past the top-level folder creation reaches its
summary and reports the per-own-folder success and failure counts. -/
theorem run_backup_counts (env : Env) (pages : List PyVal) (rfid : String) (w : World)
    (m roots : List PageInfo) (hok : get_all_pages pages = .ok (m, roots))
    (htop : env.topFolderFail = false) :
    (run_backup env pages rfid w).2
        = some ((roots.filter (fun r => !env.folderFail r.key)).length,
                (roots.filter (fun r => env.folderFail r.key)).length) ∧
    "Backup completed!" ∈ (run_backup env pages rfid w).1.log := by
  unfold run_backup
  rw [hok]
  simp only [htop, Bool.false_eq_true, if_false]
  constructor
  · rw [(rootStep_foldl_counts env m m.length _ _ roots _ 1 0 0).1,
        (rootStep_foldl_counts env m m.length _ _ roots _ 1 0 0).2]
    simp
  · simp [logLine]

/-- C5: the top-level driver never aborts early across roots: once the run
gets past the top-level folder creation it attempts every root, counts
successes and failures independently (the counts partition the root list, so
an exception from one root never stops iteration over the rest), and emits
the final summary. -/
theorem run_backup_attempts_every_root :
    ∀ (env : Env) (pages : List PyVal) (rfid : String) (w : World) (m roots : List PageInfo),
      get_all_pages pages = .ok (m, roots) →
      env.topFolderFail = false →
      (run_backup env pages rfid w).2
          = some ((roots.filter (fun r => !env.folderFail r.key)).length,
                  (roots.filter (fun r => env.folderFail r.key)).length) ∧
      (roots.filter (fun r => !env.folderFail r.key)).length
          + (roots.filter (fun r => env.folderFail r.key)).length = roots.length ∧
      "Backup completed!" ∈ (run_backup env pages rfid w).1.log := by
  intro env pages rfid w m roots hok htop
  obtain ⟨h1, h2⟩ := run_backup_counts env pages rfid w m roots hok htop
  refine ⟨h1, ?_, h2⟩
  have h3 : roots.length = (roots.filter (fun r => env.folderFail r.key)).length
      + (roots.filter (fun r => !env.folderFail r.key)).length :=
    List.length_eq_length_filter_add _
  omega

/-- A minimal parentless record with identifier `r1`. -/
def pageR1 : PyVal := .dict [("id", .str "r1")]

/-- A minimal parentless record with identifier `r2`. -/
def pageR2 : PyVal := .dict [("id", .str "r2")]

/-- Environment for the C5 witness: the root keyed `r2` fails its own
folder creation. -/
def envC5 : Env := ⟨"D", "T", fun k => k == some "r2", fun _ => false, false⟩

/-- Witness for C5 at a concrete input: with two roots of which one fails,
the run still reports one success and one failure. -/
theorem run_backup_attempts_every_root_witness :
    (run_backup envC5 [pageR1, pageR2] "R" wEmpty).2 = some (1, 1) := by
  have h := (run_backup_attempts_every_root envC5 [pageR1, pageR2] "R" wEmpty
      [⟨some "r1", pageR1, PyVal.none⟩, ⟨some "r2", pageR2, PyVal.none⟩]
      [⟨some "r1", pageR1, PyVal.none⟩, ⟨some "r2", pageR2, PyVal.none⟩] rfl rfl).1
  exact h.trans rfl

/-! ## Claim C9: the success count reflects container creation only -/

/-- Creating a folder never changes the number of uploaded artifacts. -/
theorem artifactTotal_create_folder (name parent : String) (d : DriveState) :
    artifactTotal (create_folder name parent d).2 = artifactTotal d := by
  cases h : folderQuery d name parent with
  | cons f rest => simp [create_folder, h]
  | nil => simp [create_folder, h, artifactTotal, List.filter_append]

/-- A fold whose step preserves a world measure preserves it. -/
theorem foldl_preserve {α : Type} (P : World → Nat) (step : World → α → World)
    (h : ∀ w c, P (step w c) = P w) :
    ∀ (cs : List α) (w : World), P (cs.foldl step w) = P w := by
  intro cs
  induction cs with
  | nil => intro w; rfl
  | cons c cs ih => intro w; rw [List.foldl_cons, ih, h]

/-- With every content upload failing, `backup_page` uploads no artifact at
all — whatever folders it creates and successes it reports. -/
theorem backup_page_artifacts (env : Env) (m : List PageInfo)
    (hup : ∀ k, env.uploadFail k = true) :
    ∀ (fuel : Nat) (i : PageInfo) (pfid : String) (w : World),
      artifactTotal ((backup_page env m fuel i pfid w).1.drive) = artifactTotal w.drive := by
  intro fuel
  induction fuel with
  | zero =>
      intro i pfid w
      by_cases h : env.folderFail i.key
      · simp [backup_page_fail env m 0 i pfid w h]
      · rw [backup_page_zero_fst env m i pfid w (by simpa using h)]
        simp [backupContentStep, hup, logLine, artifactTotal_create_folder]
  | succ fuel ih =>
      intro i pfid w
      by_cases h : env.folderFail i.key
      · simp [backup_page_fail env m (fuel + 1) i pfid w h]
      · rw [backup_page_succ_fst env m fuel i pfid w (by simpa using h), backupChildren]
        rw [foldl_preserve (fun wx => artifactTotal wx.drive) _ ?_ (childrenOf m i) _]
        · simp [backupContentStep, hup, logLine, artifactTotal_create_folder]
        · intro wa c
          unfold childStep
          cases hres : (backup_page env m fuel c
              (create_folder (folderNameOf env i) pfid w.drive).1 wa).2 with
          | ok v => simpa [hres] using ih c _ wa
          | error e => simpa [hres, logLine] using ih c _ wa

/-- With every content upload failing, the whole root loop uploads no
artifact. -/
theorem rootStep_foldl_drive (env : Env) (m : List PageInfo) (fuel : Nat)
    (topId : String) (total : Nat) (hup : ∀ k, env.uploadFail k = true) :
    ∀ (roots : List PageInfo) (w : World) (idx s f : Nat),
      artifactTotal ((roots.foldl (rootStep env m fuel topId total) (w, idx, s, f)).1.drive)
        = artifactTotal w.drive := by
  intro roots
  induction roots with
  | nil => intro w idx s f; rfl
  | cons r rs ih =>
      intro w idx s f
      rw [List.foldl_cons]
      by_cases hr : env.folderFail r.key
      · rw [rootStep_err env m fuel topId total (w, idx, s, f) r hr]
        rw [ih _ (idx + 1) s (f + 1)]
        simpa [logLine] using backup_page_artifacts env m hup fuel r topId w
      · rw [rootStep_ok env m fuel topId total (w, idx, s, f) r (by simpa using hr)]
        rw [ih _ (idx + 1) (s + 1) f]
        simpa [logLine] using backup_page_artifacts env m hup fuel r topId w

/-- With every content upload failing, a full `run_backup` leaves the
artifact count of the destination untouched. -/
theorem run_backup_artifacts (env : Env) (pages : List PyVal) (rfid : String) (w : World)
    (m roots : List PageInfo) (hok : get_all_pages pages = .ok (m, roots))
    (htop : env.topFolderFail = false) (hup : ∀ k, env.uploadFail k = true) :
    artifactTotal ((run_backup env pages rfid w).1.drive) = artifactTotal w.drive := by
  unfold run_backup
  rw [hok]
  simp only [htop, Bool.false_eq_true, if_false]
  simp only [show ∀ (x : World) (s : String), (logLine x s).drive = x.drive from fun _ _ => rfl]
  rw [rootStep_foldl_drive env m m.length _ roots.length hup roots _ 1 0 0]
  simp [logLine, artifactTotal_create_folder]

/-- C9 (implicit behavior): `backup_page` returns the computed folder name —
and the driver counts the root as a successful backup — exactly when the
node's own folder creation succeeds; with every content upload failing the
driver still reports the same per-own-folder success count while not one
artifact is uploaded, so the reported success count reflects root-folder
creation only. -/
theorem backup_success_reflects_folder_creation_only :
    ∀ (env : Env) (m : List PageInfo) (fuel : Nat) (i : PageInfo) (pfid : String) (w : World)
      (pages : List PyVal) (roots : List PageInfo) (rfid : String) (w0 : World),
      (env.folderFail i.key = false →
        (backup_page env m fuel i pfid w).2 = .ok (folderNameOf env i)) ∧
      ((∀ k, env.uploadFail k = true) →
        get_all_pages pages = .ok (m, roots) →
        env.topFolderFail = false →
        (run_backup env pages rfid w0).2
            = some ((roots.filter (fun r => !env.folderFail r.key)).length,
                    (roots.filter (fun r => env.folderFail r.key)).length) ∧
        artifactTotal ((run_backup env pages rfid w0).1.drive) = artifactTotal w0.drive) := by
  intro env m fuel i pfid w pages roots rfid w0
  refine ⟨fun h => by rw [backup_page_snd]; simp [h], fun hup hok htop => ?_⟩
  exact ⟨(run_backup_counts env pages rfid w0 m roots hok htop).1,
         run_backup_artifacts env pages rfid w0 m roots hok htop hup⟩

/-- Environment for the C9 witness: the root keyed `r2` fails its own
folder creation, and every content upload fails. -/
def envC9 : Env := ⟨"D", "T", fun k => k == some "r2", fun _ => true, false⟩

/-- Witness for C9 at a concrete input: the surviving root is still counted
as a success although zero artifacts were uploaded. -/
theorem backup_success_reflects_folder_creation_only_witness :
    (backup_page envC9 [⟨some "r1", pageR1, PyVal.none⟩, ⟨some "r2", pageR2, PyVal.none⟩]
        2 ⟨some "r1", pageR1, PyVal.none⟩ "F" wEmpty).2
      = .ok (folderNameOf envC9 ⟨some "r1", pageR1, PyVal.none⟩) ∧
    (run_backup envC9 [pageR1, pageR2] "R" wEmpty).2 = some (1, 1) ∧
    artifactTotal ((run_backup envC9 [pageR1, pageR2] "R" wEmpty).1.drive) = 0 := by
  have h := backup_success_reflects_folder_creation_only envC9
      [⟨some "r1", pageR1, PyVal.none⟩, ⟨some "r2", pageR2, PyVal.none⟩]
      2 ⟨some "r1", pageR1, PyVal.none⟩ "F" wEmpty [pageR1, pageR2]
      [⟨some "r1", pageR1, PyVal.none⟩, ⟨some "r2", pageR2, PyVal.none⟩] "R" wEmpty
  obtain ⟨hrun, hart⟩ := h.2 (fun k => rfl) rfl rfl
  exact ⟨h.1 rfl, hrun.trans rfl, hart.trans rfl⟩

/-! ## Claim C3: the three-record end-to-end scenario -/

/-- Record A: a root with no parent field, titled `A`. -/
def pageA : PyVal :=
  .dict [("id", .str "a"),
         ("properties", .dict [("title", .list [.dict [("text", .dict [("content", .str "A")])]])])]

/-- Record B: a child of A, titled `B`. -/
def pageB : PyVal :=
  .dict [("id", .str "b"),
         ("parent", .dict [("type", .str "page_id"), ("page_id", .str "a")]),
         ("properties", .dict [("title", .list [.dict [("text", .dict [("content", .str "B")])]])])]

/-- Record C: parented to the identifier `missing-id`, which is not in the
input, titled `C`. -/
def pageC : PyVal :=
  .dict [("id", .str "c"),
         ("parent", .dict [("type", .str "page_id"), ("page_id", .str "missing-id")]),
         ("properties", .dict [("title", .list [.dict [("text", .dict [("content", .str "C")])]])])]

/-- The map built from the three records. -/
def mABC : List PageInfo :=
  [⟨some "a", pageA, PyVal.none⟩, ⟨some "b", pageB, PyVal.str "a"⟩,
   ⟨some "c", pageC, PyVal.str "missing-id"⟩]

/-- A failure-free run environment with fixed date and timestamp. -/
def envNoFail : Env := ⟨"20261012", "20261012_120000", fun _ => false, fun _ => false, false⟩

/-- C3 counterexample: on the three-record input the claim expects a forest
of exactly two roots (A and the demoted orphan C), but `get_all_pages`
produces exactly one root — C is dropped, not demoted. -/
theorem three_record_scenario_cx :
    (get_all_pages [pageA, pageB, pageC]).map (fun pr => pr.2.length) ≠ Except.ok 2 := by
  intro h
  have h1 : (get_all_pages [pageA, pageB, pageC]).map (fun pr => pr.2.length)
      = Except.ok 1 := rfl
  rw [h1] at h
  simp at h

/-- C3 (amended): the three-record input builds a forest of exactly one root
— A with single child B — while C is silently omitted, and the mirror pass
creates exactly one top-level container, one first-level container (for A),
one second-level container (for B), and two content artifacts. -/
theorem three_record_scenario :
    get_all_pages [pageA, pageB, pageC] = .ok (mABC, [⟨some "a", pageA, PyVal.none⟩]) ∧
    childrenOf mABC ⟨some "a", pageA, PyVal.none⟩ = [⟨some "b", pageB, PyVal.str "a"⟩] ∧
    childrenOf mABC ⟨some "b", pageB, PyVal.str "a"⟩ = [] ∧
    childrenOf mABC ⟨some "c", pageC, PyVal.str "missing-id"⟩ = [] ∧
    (run_backup envNoFail [pageA, pageB, pageC] "ROOT" wEmpty).2 = some (1, 0) ∧
    foldersUnder (run_backup envNoFail [pageA, pageB, pageC] "ROOT" wEmpty).1.drive "ROOT" = 1 ∧
    foldersUnder (run_backup envNoFail [pageA, pageB, pageC] "ROOT" wEmpty).1.drive
      "drive-id-0" = 1 ∧
    foldersUnder (run_backup envNoFail [pageA, pageB, pageC] "ROOT" wEmpty).1.drive
      "drive-id-1" = 1 ∧
    artifactTotal (run_backup envNoFail [pageA, pageB, pageC] "ROOT" wEmpty).1.drive = 2 :=
  ⟨rfl, rfl, rfl, rfl, rfl, rfl, rfl, rfl, rfl⟩

/-! ## Claim C2: partition of records across the forest

The object graph that `get_all_pages` leaves behind is counted through the
fuel-unfolded subtree functions `subtreeCount` / `subtreeOcc` at fuel
`m.length`, which bounds the depth of every acyclic graph.  Acyclicity is
expressed by a rank function decreasing across the parent relation. -/

/-- A dict assignment introduces no key beyond the old keys and the assigned
key. -/
theorem keys_dictInsert (m : List PageInfo) (i : PageInfo) :
    ∀ x ∈ (dictInsert m i).map (fun e => e.key), x ∈ m.map (fun e => e.key) ∨ x = i.key := by
  induction m with
  | nil => intro x hx; simp [dictInsert] at hx; exact Or.inr hx
  | cons e m ih =>
      intro x hx
      by_cases he : (e.key == i.key)
      · simp only [dictInsert, if_pos he] at hx
        simp only [List.map_cons, List.mem_cons] at hx
        rcases hx with rfl | hx
        · exact Or.inr rfl
        · exact Or.inl (by simp [List.mem_cons]; right; simpa using hx)
      · simp only [dictInsert, if_neg he] at hx
        simp only [List.map_cons, List.mem_cons] at hx
        rcases hx with rfl | hx
        · exact Or.inl (by simp)
        · rcases ih x (by simpa using hx) with h | h
          · exact Or.inl (by simp [List.mem_cons]; right; simpa using h)
          · exact Or.inr h

/-- Dict assignment preserves pairwise-distinct keys. -/
theorem nodup_dictInsert (m : List PageInfo) (i : PageInfo)
    (h : (m.map (fun e => e.key)).Nodup) :
    ((dictInsert m i).map (fun e => e.key)).Nodup := by
  induction m with
  | nil => simp [dictInsert]
  | cons e m ih =>
      simp only [List.map_cons, List.nodup_cons] at h
      by_cases he : (e.key == i.key)
      · have hek : e.key = i.key := by simpa using he
        simp only [dictInsert, if_pos he, List.map_cons, List.nodup_cons]
        exact ⟨by rw [← hek]; exact h.1, h.2⟩
      · simp only [dictInsert, if_neg he, List.map_cons, List.nodup_cons]
        refine ⟨?_, ih h.2⟩
        intro hmem
        rcases keys_dictInsert m i e.key hmem with hin | heq
        · exact h.1 hin
        · exact he (by simp [heq])

/-- The first pass always builds a map with pairwise-distinct keys. -/
theorem firstPass_nodup :
    ∀ (pages : List PyVal) (m0 m : List PageInfo), firstPass pages m0 = .ok m →
      (m0.map (fun e => e.key)).Nodup → (m.map (fun e => e.key)).Nodup := by
  intro pages
  induction pages with
  | nil => intro m0 m h h0; simp only [firstPass] at h; cases h; exact h0
  | cons p ps ih =>
      intro m0 m h h0
      simp only [firstPass] at h
      cases hmk : mkInfo p with
      | error e => rw [hmk] at h; exact Except.noConfusion h
      | ok i =>
          rw [hmk] at h
          exact ih (dictInsert m0 i) m h (nodup_dictInsert m0 i h0)

/-- The map returned by a successful `get_all_pages` has pairwise-distinct
keys. -/
theorem get_all_pages_nodup {pages : List PyVal} {m roots : List PageInfo}
    (h : get_all_pages pages = .ok (m, roots)) :
    (m.map (fun e => e.key)).Nodup :=
  firstPass_nodup pages [] m (get_all_pages_ok h).1 (by simp)

/-- With pairwise-distinct keys, a map entry is determined by its key. -/
theorem mem_key_inj {m : List PageInfo} (hnd : (m.map (fun e => e.key)).Nodup)
    {p q : PageInfo} (hp : p ∈ m) (hq : q ∈ m) (hk : p.key = q.key) : p = q :=
  List.inj_on_of_nodup_map hnd hp hq hk

/-- The parent lookup lands in the map. -/
theorem parentEntry_mem {m : List PageInfo} {i p : PageInfo}
    (h : parentEntry m i = some p) : p ∈ m := by
  unfold parentEntry at h
  cases hc : childKey i.parentId with
  | none => rw [hc] at h; exact Option.noConfusion h
  | some s => rw [hc] at h; exact List.mem_of_find?_eq_some h

/-- The parent lookup succeeds only on a truthy string parent identifier and
returns an entry carrying exactly that key. -/
theorem parentEntry_key {m : List PageInfo} {i p : PageInfo}
    (h : parentEntry m i = some p) :
    ∃ s, childKey i.parentId = some s ∧ p.key = some s := by
  unfold parentEntry at h
  cases hc : childKey i.parentId with
  | none => rw [hc] at h; exact Option.noConfusion h
  | some s => rw [hc] at h; exact ⟨s, rfl, by simpa using List.find?_some h⟩

/-- With pairwise-distinct keys, a member of an entry's children list looks
its parent up to exactly that entry. -/
theorem parentEntry_of_child {m : List PageInfo} {i c : PageInfo} {s : String}
    (hnd : (m.map (fun e => e.key)).Nodup) (hi : i ∈ m) (hik : i.key = some s)
    (hc : c ∈ childrenOf m i) : parentEntry m c = some i := by
  simp only [childrenOf, hik] at hc
  have hcm := (List.mem_filter.mp hc).1
  have hck : childKey c.parentId = some s := by simpa using (List.mem_filter.mp hc).2
  unfold parentEntry
  rw [hck]
  show m.find? (fun p => p.key == some s) = some i
  have hsome : (m.find? (fun p => p.key == some s)).isSome :=
    List.find?_isSome.mpr ⟨i, hi, by simp [hik]⟩
  obtain ⟨p, hp⟩ := Option.isSome_iff_exists.mp hsome
  rw [hp]
  have hpm := List.mem_of_find?_eq_some hp
  have hpk : p.key = some s := by simpa using List.find?_some hp
  rw [mem_key_inj hnd hpm hi (hpk.trans hik.symm)]

/-- An entry whose parent lookup yields `i` is in `i`'s children list. -/
theorem child_of_parentEntry {m : List PageInfo} {i c : PageInfo}
    (h : parentEntry m c = some i) (hcm : c ∈ m) : c ∈ childrenOf m i := by
  obtain ⟨s, hck, hik⟩ := parentEntry_key h
  simp only [childrenOf, hik]
  exact List.mem_filter.mpr ⟨hcm, by simp [hck]⟩

/-- Parent chains compose: the `(a+b)`-th ancestor is the `b`-th ancestor of
the `a`-th ancestor. -/
theorem ancestorAt_add (m : List PageInfo) (a b : Nat) (j : PageInfo) :
    ancestorAt m (a + b) j = (ancestorAt m a j).bind (ancestorAt m b) := by
  induction b with
  | zero => cases h : ancestorAt m a j <;> simp [ancestorAt, h]
  | succ b ih =>
      show ancestorAt m ((a + b) + 1) j = _
      rw [ancestorAt, ih]
      cases ancestorAt m a j with
      | none => rfl
      | some x => rfl

/-- Every defined ancestor of a map entry lies in the map. -/
theorem ancestorAt_mem {m : List PageInfo} {j x : PageInfo} {d : Nat}
    (hj : j ∈ m) (h : ancestorAt m d j = some x) : x ∈ m := by
  cases d with
  | zero => rw [ancestorAt] at h; cases h; exact hj
  | succ d =>
      rw [ancestorAt] at h
      cases ha : ancestorAt m d j with
      | none => rw [ha] at h; exact Option.noConfusion h
      | some y => rw [ha] at h; exact parentEntry_mem h

/-- Under a rank function that decreases across the parent relation, every
proper ancestor has strictly smaller rank. -/
theorem rank_ancestor_lt {m : List PageInfo} {rank : Option String → Nat}
    (hrank : ∀ i ∈ m, ∀ p, parentEntry m i = some p → rank p.key < rank i.key) :
    ∀ (d : Nat) (j x : PageInfo), j ∈ m → ancestorAt m (d + 1) j = some x →
      rank x.key < rank j.key := by
  intro d
  induction d with
  | zero =>
      intro j x hj h
      rw [ancestorAt] at h
      simp only [ancestorAt, Option.some_bind] at h
      exact hrank j hj x h
  | succ d ih =>
      intro j x hj h
      rw [ancestorAt] at h
      cases ha : ancestorAt m (d + 1) j with
      | none => rw [ha] at h; exact Option.noConfusion h
      | some y =>
          rw [ha] at h
          have hy := ancestorAt_mem hj ha
          exact lt_trans (hrank y hy x h) (ih j y hj ha)

/-- Under a rank function no entry is its own proper ancestor: the parent
relation is acyclic. -/
theorem no_self_ancestor {m : List PageInfo} {rank : Option String → Nat}
    (hrank : ∀ i ∈ m, ∀ p, parentEntry m i = some p → rank p.key < rank i.key)
    {j : PageInfo} {d : Nat} (hj : j ∈ m)
    (h : ancestorAt m (d + 1) j = some j) : False :=
  lt_irrefl _ (rank_ancestor_lt hrank d j j hj h)

/-- The parent chain of a root (an entry whose parent identifier yields no
lookup key) ends immediately. -/
theorem ancestorAt_root_none {m : List PageInfo} {r : PageInfo}
    (hr : childKey r.parentId = Option.none) :
    ∀ g, 1 ≤ g → ancestorAt m g r = Option.none := by
  intro g
  induction g with
  | zero => intro h; omega
  | succ g ih =>
      intro _
      rw [ancestorAt]
      cases g with
      | zero => simp [ancestorAt, parentEntry, hr]
      | succ g2 => rw [ih (by omega)]; rfl

/-- Along one parent chain all defined ancestors are pairwise distinct. -/
theorem ancestors_distinct {m : List PageInfo} {rank : Option String → Nat}
    (hrank : ∀ i ∈ m, ∀ p, parentEntry m i = some p → rank p.key < rank i.key)
    {j : PageInfo} (hj : j ∈ m) {d1 d2 : Nat} (hlt : d1 < d2)
    {x1 x2 : PageInfo} (h1 : ancestorAt m d1 j = some x1)
    (h2 : ancestorAt m d2 j = some x2) : x1 ≠ x2 := by
  intro heq
  subst heq
  have hsplit : d2 = d1 + (d2 - d1) := by omega
  rw [hsplit, ancestorAt_add, h1, Option.some_bind] at h2
  have hx1 : x1 ∈ m := ancestorAt_mem hj h1
  have hd : d2 - d1 = (d2 - d1 - 1) + 1 := by omega
  rw [hd] at h2
  exact no_self_ancestor hrank hx1 h2

/-- Children lists draw their entries from the map. -/
theorem childrenOf_subset {m : List PageInfo} {i c : PageInfo}
    (hc : c ∈ childrenOf m i) : c ∈ m := by
  unfold childrenOf at hc
  cases hik : i.key with
  | none => rw [hik] at hc; exact absurd hc (by simp)
  | some s => rw [hik] at hc; exact (List.mem_filter.mp hc).1

/-- With pairwise-distinct keys, children lists carry no duplicates. -/
theorem childrenOf_nodup {m : List PageInfo} (i : PageInfo)
    (hnd : (m.map (fun e => e.key)).Nodup) : (childrenOf m i).Nodup := by
  unfold childrenOf
  cases i.key with
  | none => simp
  | some s => exact (List.Nodup.of_map _ hnd).filter _

/-- Summing a 0/1-valued function over a duplicate-free list with exactly one
hit gives one. -/
theorem sum_map_single {α : Type} (f : α → Nat) :
    ∀ (L : List α), L.Nodup → ∀ c ∈ L, f c = 1 →
      (∀ x ∈ L, x ≠ c → f x = 0) → (L.map f).sum = 1 := by
  intro L
  induction L with
  | nil => intro _ c hc; exact absurd hc (by simp)
  | cons a L ih =>
      intro hnd c hc h1 h0
      simp only [List.nodup_cons] at hnd
      rcases List.mem_cons.mp hc with rfl | hcL
      · simp only [List.map_cons, List.sum_cons, h1]
        have hz : (L.map f).sum = 0 := by
          apply List.sum_eq_zero
          intro x hx
          simp only [List.mem_map] at hx
          obtain ⟨y, hy, rfl⟩ := hx
          exact h0 y (by simp [hy]) (fun hyc => hnd.1 (hyc ▸ hy))
        omega
      · have ha : f a = 0 := h0 a (by simp) (fun hac => hnd.1 (hac ▸ hcL))
        simp only [List.map_cons, List.sum_cons, ha]
        rw [ih hnd.2 c hcL h1 (fun x hx hxc => h0 x (by simp [hx]) hxc)]

/-- A chain from `j` cannot pass through two distinct children of the same
entry `i`: between the two it would have to revisit `i`, contradicting the
rank function. -/
theorem reach_child_aux {m : List PageInfo} {rank : Option String → Nat}
    (hrank : ∀ i ∈ m, ∀ p, parentEntry m i = some p → rank p.key < rank i.key)
    {i : PageInfo} (hi : i ∈ m)
    {j c1 c2 : PageInfo} (hj : j ∈ m)
    (hp1 : parentEntry m c1 = some i) (hp2 : parentEntry m c2 = some i)
    {d1 d2 : Nat} (hlt : d1 < d2)
    (ha1 : ancestorAt m d1 j = some c1) (ha2 : ancestorAt m d2 j = some c2) : False := by
  have hc2m : c2 ∈ m := ancestorAt_mem hj ha2
  have hsplit : d2 = d1 + (d2 - d1) := by omega
  rw [hsplit, ancestorAt_add, ha1, Option.some_bind] at ha2
  by_cases hg : d2 - d1 = 1
  · rw [hg] at ha2
    rw [ancestorAt, ancestorAt, Option.some_bind, hp1] at ha2
    have hc2i : c2 = i := by
      have := ha2.symm
      injection this
    subst hc2i
    exact lt_irrefl _ (hrank c2 hi c2 hp2)
  · have hg2 : d2 - d1 = ((d2 - d1 - 2) + 1) + 1 := by omega
    rw [hg2, show ((d2 - d1 - 2) + 1) + 1 = 1 + ((d2 - d1 - 2) + 1) by omega,
        ancestorAt_add, show ancestorAt m 1 c1 = parentEntry m c1 by
          rw [ancestorAt]; rfl, hp1, Option.some_bind] at ha2
    have hlt1 : rank c2.key < rank i.key :=
      rank_ancestor_lt hrank (d2 - d1 - 2) i c2 hi ha2
    have hlt2 : rank i.key < rank c2.key := hrank c2 hc2m i hp2
    omega

/-- With pairwise-distinct keys, membership in `i`'s children list alone
determines the parent lookup. -/
theorem parentEntry_of_child2 {m : List PageInfo} {i c : PageInfo}
    (hnd : (m.map (fun e => e.key)).Nodup) (hi : i ∈ m)
    (hc : c ∈ childrenOf m i) : parentEntry m c = some i := by
  cases hik : i.key with
  | none =>
      have : childrenOf m i = [] := by unfold childrenOf; rw [hik]
      rw [this] at hc
      exact absurd hc (by simp)
  | some s => exact parentEntry_of_child hnd hi hik hc

section
open Classical

/-- Key counting in the unfolded object graph: with pairwise-distinct keys
and a rank function, the subtree hanging off entry `i`, unfolded `fuel`
levels, contains the key of entry `j` exactly once if the parent chain of
`j` reaches `i` within `fuel` steps, and not at all otherwise. -/
theorem subtreeOcc_reach (m : List PageInfo) (rank : Option String → Nat)
    (hnd : (m.map (fun e => e.key)).Nodup)
    (hrank : ∀ i ∈ m, ∀ p, parentEntry m i = some p → rank p.key < rank i.key) :
    ∀ (fuel : Nat) (i j : PageInfo), i ∈ m → j ∈ m →
      subtreeOcc m j.key fuel i
        = if ∃ d, d ≤ fuel ∧ ancestorAt m d j = some i then 1 else 0 := by
  intro fuel
  induction fuel with
  | zero =>
      intro i j hi hj
      rw [subtreeOcc]
      by_cases hij : i = j
      · subst hij
        rw [if_pos (show ∃ d, d ≤ 0 ∧ ancestorAt m d i = some i from
          ⟨0, Nat.le_refl 0, rfl⟩)]
        simp
      · have hk0 : (i.key == j.key) = false :=
          beq_eq_false_iff_ne.mpr (fun hk => hij (mem_key_inj hnd hi hj hk))
        have hno : ¬ ∃ d, d ≤ 0 ∧ ancestorAt m d j = some i := by
          rintro ⟨d, hd, hanc⟩
          interval_cases d
          rw [ancestorAt] at hanc
          exact hij (Option.some.inj hanc.symm)
        rw [hk0, if_neg hno]
        simp
  | succ fuel ih =>
      intro i j hi hj
      rw [subtreeOcc]
      have hmap : (childrenOf m i).map (subtreeOcc m j.key fuel)
          = (childrenOf m i).map
              (fun c => if ∃ d, d ≤ fuel ∧ ancestorAt m d j = some c then 1 else 0) :=
        List.map_congr_left (fun c hc => ih c j (childrenOf_subset hc) hj)
      rw [hmap]
      by_cases hij : i = j
      · subst hij
        rw [if_pos (show ∃ d, d ≤ fuel + 1 ∧ ancestorAt m d i = some i from
          ⟨0, Nat.zero_le _, rfl⟩)]
        have hz : ((childrenOf m i).map
            (fun c => if ∃ d, d ≤ fuel ∧ ancestorAt m d i = some c then 1 else 0)).sum
              = 0 := by
          apply List.sum_eq_zero
          intro x hx
          simp only [List.mem_map] at hx
          obtain ⟨c, hc, rfl⟩ := hx
          rw [if_neg]
          rintro ⟨d, hd, hanc⟩
          have hpe := parentEntry_of_child2 hnd hi hc
          have hself : ancestorAt m (d + 1) i = some i := by
            rw [ancestorAt, hanc, Option.some_bind, hpe]
          exact no_self_ancestor hrank hi hself
        rw [hz]
        simp
      · have hk0 : (i.key == j.key) = false :=
          beq_eq_false_iff_ne.mpr (fun hk => hij (mem_key_inj hnd hi hj hk))
        rw [hk0]
        simp only [Bool.false_eq_true, if_false, Nat.zero_add]
        by_cases hreach : ∃ d, d ≤ fuel + 1 ∧ ancestorAt m d j = some i
        · rw [if_pos hreach]
          obtain ⟨d, hd, hanc⟩ := hreach
          cases d with
          | zero =>
              rw [ancestorAt] at hanc
              exact absurd (Option.some.inj hanc).symm hij
          | succ d2 =>
              rw [ancestorAt] at hanc
              cases ha : ancestorAt m d2 j with
              | none => rw [ha] at hanc; exact absurd hanc (by simp)
              | some c2 =>
                  rw [ha, Option.some_bind] at hanc
                  have hc2m : c2 ∈ m := ancestorAt_mem hj ha
                  have hc2c : c2 ∈ childrenOf m i := child_of_parentEntry hanc hc2m
                  refine sum_map_single _ (childrenOf m i) (childrenOf_nodup i hnd)
                    c2 hc2c ?_ ?_
                  · rw [if_pos ⟨d2, by omega, ha⟩]
                  · intro c hc hcc
                    rw [if_neg]
                    rintro ⟨d3, hd3, hanc3⟩
                    have hpc := parentEntry_of_child2 hnd hi hc
                    rcases lt_trichotomy d3 d2 with hlt | heq | hgt
                    · exact reach_child_aux hrank hi hj hpc hanc hlt hanc3 ha
                    · subst heq
                      rw [ha] at hanc3
                      exact hcc (Option.some.inj hanc3).symm
                    · exact reach_child_aux hrank hi hj hanc hpc hgt ha hanc3
        · rw [if_neg hreach]
          apply List.sum_eq_zero
          intro x hx
          simp only [List.mem_map] at hx
          obtain ⟨c, hc, rfl⟩ := hx
          rw [if_neg]
          rintro ⟨d, hd, hanc⟩
          have hpe := parentEntry_of_child2 hnd hi hc
          exact hreach ⟨d + 1, by omega, by rw [ancestorAt, hanc, Option.some_bind, hpe]⟩

end

/-- When every referenced parent identifier is present in the map, a truthy
string parent identifier always resolves. -/
theorem chain_extends {m : List PageInfo} {x : PageInfo}
    (hpar : ∀ i ∈ m, ∀ s, childKey i.parentId = some s → ∃ p ∈ m, p.key = some s)
    (hx : x ∈ m) {s : String} (hck : childKey x.parentId = some s) :
    ∃ p, parentEntry m x = some p := by
  obtain ⟨p, hp, hpk⟩ := hpar x hx s hck
  unfold parentEntry
  rw [hck]
  show ∃ p, m.find? (fun q => q.key == some s) = some p
  have hsome : (m.find? (fun q => q.key == some s)).isSome :=
    List.find?_isSome.mpr ⟨p, hp, by simp [hpk]⟩
  exact Option.isSome_iff_exists.mp hsome

/-- Where a parent chain stops (no lookup key), the entry's parent identifier
is falsy — the entry is a root. -/
theorem root_of_chain_stop {m : List PageInfo}
    (hstr : ∀ i ∈ m, pyTruthy i.parentId = true → ∃ s, i.parentId = PyVal.str s)
    {x : PageInfo} (hx : x ∈ m) (hck : childKey x.parentId = Option.none) :
    pyTruthy x.parentId = false := by
  cases hv : pyTruthy x.parentId
  · rfl
  · obtain ⟨s, hs⟩ := hstr x hx hv
    by_cases he : (s == "")
    · rw [hs] at hv; simp [pyTruthy, he] at hv
    · rw [hs] at hck; simp [childKey, he] at hck

/-- Every map entry reaches a root within `m.length` steps: chains always
extend until a falsy parent, and a chain longer than the map would repeat an
entry, contradicting the rank function. -/
theorem exists_root_reach {m : List PageInfo} {rank : Option String → Nat}
    (hrank : ∀ i ∈ m, ∀ p, parentEntry m i = some p → rank p.key < rank i.key)
    (hpar : ∀ i ∈ m, ∀ s, childKey i.parentId = some s → ∃ p ∈ m, p.key = some s)
    (hstr : ∀ i ∈ m, pyTruthy i.parentId = true → ∃ s, i.parentId = PyVal.str s)
    {j : PageInfo} (hj : j ∈ m) :
    ∃ r d, d ≤ m.length ∧ ancestorAt m d j = some r ∧ pyTruthy r.parentId = false := by
  by_contra hno
  push_neg at hno
  have hdef : ∀ d, d ≤ m.length + 1 → ∃ x, ancestorAt m d j = some x := by
    intro d
    induction d with
    | zero => intro _; exact ⟨j, rfl⟩
    | succ d ihd =>
        intro hdle
        obtain ⟨x, hx⟩ := ihd (by omega)
        have hxm : x ∈ m := ancestorAt_mem hj hx
        have hnr : pyTruthy x.parentId ≠ false := hno x d (by omega) hx
        have ht : pyTruthy x.parentId = true := by
          cases hv : pyTruthy x.parentId
          · exact absurd hv hnr
          · rfl
        obtain ⟨s, hs⟩ := hstr x hxm ht
        have hsne : (s == "") = false := by
          rw [hs] at ht
          simpa [pyTruthy] using ht
        have hck : childKey x.parentId = some s := by
          rw [hs]
          simp [childKey, hsne]
        obtain ⟨p, hp⟩ := chain_extends hpar hxm hck
        exact ⟨p, by rw [ancestorAt, hx, Option.some_bind, hp]⟩
  classical
  have hfex : ∀ d : Fin (m.length + 2), ∃ x, ancestorAt m d.val j = some x :=
    fun d => hdef d.val (Nat.lt_succ_iff.mp d.isLt)
  let f : Fin (m.length + 2) → PageInfo := fun d => (hfex d).choose
  have hfspec : ∀ d : Fin (m.length + 2), ancestorAt m d.val j = some (f d) :=
    fun d => (hfex d).choose_spec
  have hfmem : ∀ d, f d ∈ m := fun d => ancestorAt_mem hj (hfspec d)
  have hinj : Function.Injective f := by
    intro d1 d2 heq
    by_contra hne
    rcases Nat.lt_or_ge d1.val d2.val with hlt | hge
    · exact ancestors_distinct hrank hj hlt (hfspec d1) (hfspec d2) heq
    · have hlt2 : d2.val < d1.val := by
        rcases Nat.lt_or_ge d2.val d1.val with h | h
        · exact h
        · exact absurd (Fin.ext (by omega)) hne
      exact ancestors_distinct hrank hj hlt2 (hfspec d2) (hfspec d1) heq.symm
  have hcard : (Finset.univ : Finset (Fin (m.length + 2))).card ≤ m.toFinset.card :=
    Finset.card_le_card_of_injOn f (fun d _ => List.mem_toFinset.mpr (hfmem d))
      (Function.Injective.injOn hinj)
  have hfin : m.toFinset.card ≤ m.length := List.toFinset_card_le m
  simp only [Finset.card_univ, Fintype.card_fin] at hcard
  omega

/-- A falsy parent identifier yields no lookup key. -/
theorem childKey_none_of_falsy {v : PyVal} (h : pyTruthy v = false) :
    childKey v = Option.none := by
  cases v with
  | str s =>
      have : (s == "") = true := by simpa [pyTruthy] using h
      simp [childKey, this]
  | none => rfl
  | list xs => rfl
  | dict es => rfl

/-- Summing a pointwise sum splits. -/
theorem sum_map_add {α : Type} (f g : α → Nat) (L : List α) :
    (L.map (fun x => f x + g x)).sum = (L.map f).sum + (L.map g).sum := by
  induction L with
  | nil => rfl
  | cons a L ih => simp only [List.map_cons, List.sum_cons, ih]; omega

/-- Two nested list sums commute. -/
theorem sum_map_swap {α β : Type} (J : List α) (C : List β) (g : α → β → Nat) :
    (J.map (fun j => (C.map (g j)).sum)).sum
      = (C.map (fun c => (J.map (fun j => g j c)).sum)).sum := by
  induction J with
  | nil =>
      simp only [List.map_nil, List.sum_nil]
      symm
      apply List.sum_eq_zero
      intro x hx
      simp only [List.mem_map] at hx
      obtain ⟨c, _, rfl⟩ := hx
      rfl
  | cons j J ihJ =>
      simp only [List.map_cons, List.sum_cons, ihJ]
      rw [sum_map_add (fun c => g j c) (fun c => (J.map (fun x => g x c)).sum) C]

/-- The node count of an unfolded subtree is the sum, over all map keys, of
that key's occurrence count in the subtree. -/
theorem subtreeCount_eq_sum (m : List PageInfo)
    (hnd : (m.map (fun e => e.key)).Nodup) :
    ∀ (fuel : Nat) (i : PageInfo), i ∈ m →
      subtreeCount m fuel i = (m.map (fun j => subtreeOcc m j.key fuel i)).sum := by
  intro fuel
  induction fuel with
  | zero =>
      intro i hi
      rw [subtreeCount]
      symm
      refine sum_map_single _ m (List.Nodup.of_map _ hnd) i hi ?_ ?_
      · rw [subtreeOcc]; simp
      · intro x hx hxi
        rw [subtreeOcc]
        have hk : (i.key == x.key) = false :=
          beq_eq_false_iff_ne.mpr (fun hk => hxi (mem_key_inj hnd hx hi hk.symm))
        simp [hk]
  | succ fuel ihf =>
      intro i hi
      rw [subtreeCount]
      have hR : m.map (fun j => subtreeOcc m j.key (fuel + 1) i)
          = m.map (fun j => (if i.key == j.key then 1 else 0)
              + ((childrenOf m i).map (subtreeOcc m j.key fuel)).sum) :=
        List.map_congr_left (fun j _ => by rw [subtreeOcc])
      rw [hR, sum_map_add, sum_map_swap m (childrenOf m i)
        (fun j c => subtreeOcc m j.key fuel c)]
      have h2 : (childrenOf m i).map
            (fun c => (m.map (fun j => subtreeOcc m j.key fuel c)).sum)
          = (childrenOf m i).map (fun c => subtreeCount m fuel c) :=
        List.map_congr_left (fun c hc => (ihf c (childrenOf_subset hc)).symm)
      rw [h2]
      have h1 : (m.map (fun j => if i.key == j.key then 1 else 0)).sum = 1 := by
        refine sum_map_single _ m (List.Nodup.of_map _ hnd) i hi ?_ ?_
        · simp
        · intro x hx hxi
          have hk : (i.key == x.key) = false :=
            beq_eq_false_iff_ne.mpr (fun hk => hxi (mem_key_inj hnd hx hi hk.symm))
          simp [hk]
      rw [h1]

/-- Under the amended hypotheses every key occurs exactly once across the
whole forest of root subtrees unfolded `m.length` levels. -/
theorem roots_occ_one {m : List PageInfo} {rank : Option String → Nat}
    (hnd : (m.map (fun e => e.key)).Nodup)
    (hrank : ∀ i ∈ m, ∀ p, parentEntry m i = some p → rank p.key < rank i.key)
    (hpar : ∀ i ∈ m, ∀ s, childKey i.parentId = some s → ∃ p ∈ m, p.key = some s)
    (hstr : ∀ i ∈ m, pyTruthy i.parentId = true → ∃ s, i.parentId = PyVal.str s) :
    ∀ j ∈ m,
      ((m.filter (fun i => !pyTruthy i.parentId)).map
        (fun r => subtreeOcc m j.key m.length r)).sum = 1 := by
  classical
  intro j hj
  obtain ⟨r, d, hd, hanc, hroot⟩ := exists_root_reach hrank hpar hstr hj
  have hrm : r ∈ m := ancestorAt_mem hj hanc
  have hrin : r ∈ m.filter (fun i => !pyTruthy i.parentId) :=
    List.mem_filter.mpr ⟨hrm, by simp [hroot]⟩
  have hmap : (m.filter (fun i => !pyTruthy i.parentId)).map
        (fun x => subtreeOcc m j.key m.length x)
      = (m.filter (fun i => !pyTruthy i.parentId)).map
          (fun x => if ∃ d, d ≤ m.length ∧ ancestorAt m d j = some x then 1 else 0) :=
    List.map_congr_left (fun x hx =>
      subtreeOcc_reach m rank hnd hrank m.length x j (List.mem_filter.mp hx).1 hj)
  rw [hmap]
  refine sum_map_single _ _ ((List.Nodup.of_map _ hnd).filter _) r hrin ?_ ?_
  · rw [if_pos ⟨d, hd, hanc⟩]
  · intro x hx hxr
    rw [if_neg]
    rintro ⟨d2, hd2, hanc2⟩
    have hxroot : pyTruthy x.parentId = false := by
      have := (List.mem_filter.mp hx).2
      simpa using this
    rcases lt_trichotomy d d2 with hlt | heq | hgt
    · have hck : childKey r.parentId = Option.none := childKey_none_of_falsy hroot
      have hsplit : d2 = d + (d2 - d) := by omega
      rw [hsplit, ancestorAt_add, hanc, Option.some_bind,
          ancestorAt_root_none hck (d2 - d) (by omega)] at hanc2
      exact Option.noConfusion hanc2
    · subst heq
      rw [hanc] at hanc2
      exact hxr (Option.some.inj hanc2).symm
    · have hck : childKey x.parentId = Option.none := childKey_none_of_falsy hxroot
      have hsplit : d = d2 + (d - d2) := by omega
      rw [hsplit, ancestorAt_add, hanc2, Option.some_bind,
          ancestorAt_root_none hck (d - d2) (by omega)] at hanc
      exact Option.noConfusion hanc

/-- Under the amended hypotheses the total node count across the forest is
the size of the map. -/
theorem roots_total_count {m : List PageInfo} {rank : Option String → Nat}
    (hnd : (m.map (fun e => e.key)).Nodup)
    (hrank : ∀ i ∈ m, ∀ p, parentEntry m i = some p → rank p.key < rank i.key)
    (hpar : ∀ i ∈ m, ∀ s, childKey i.parentId = some s → ∃ p ∈ m, p.key = some s)
    (hstr : ∀ i ∈ m, pyTruthy i.parentId = true → ∃ s, i.parentId = PyVal.str s) :
    ((m.filter (fun i => !pyTruthy i.parentId)).map
       (fun r => subtreeCount m m.length r)).sum = m.length := by
  classical
  have h1 : (m.filter (fun i => !pyTruthy i.parentId)).map
        (fun r => subtreeCount m m.length r)
      = (m.filter (fun i => !pyTruthy i.parentId)).map
          (fun r => (m.map (fun j => subtreeOcc m j.key m.length r)).sum) :=
    List.map_congr_left (fun r hr =>
      subtreeCount_eq_sum m hnd m.length r (List.mem_filter.mp hr).1)
  rw [h1, sum_map_swap (m.filter (fun i => !pyTruthy i.parentId)) m
      (fun r j => subtreeOcc m j.key m.length r)]
  have h2 : m.map (fun j => ((m.filter (fun i => !pyTruthy i.parentId)).map
        (fun r => subtreeOcc m j.key m.length r)).sum)
      = m.map (fun _ => 1) :=
    List.map_congr_left (fun j hj => roots_occ_one hnd hrank hpar hstr j hj)
  rw [h2]
  simp

/-- C2 (amended): for an input whose identifiers are pairwise distinct (the
map keeps one entry per record), whose non-empty parent identifiers all
refer to records of the input, and whose parent relation admits a rank
function (is acyclic), every record occurs in exactly one position of the
forest built by `get_all_pages` and the total node count across the forest
equals the input record count. -/
theorem get_all_pages_partition :
    ∀ (pages : List PyVal) (m roots : List PageInfo) (rank : Option String → Nat),
      get_all_pages pages = .ok (m, roots) →
      m.length = pages.length →
      (∀ i ∈ m, ∀ s, childKey i.parentId = some s → ∃ p ∈ m, p.key = some s) →
      (∀ i ∈ m, ∀ p, parentEntry m i = some p → rank p.key < rank i.key) →
      (roots.map (fun r => subtreeCount m m.length r)).sum = pages.length ∧
      ∀ j ∈ m, (roots.map (fun r => subtreeOcc m j.key m.length r)).sum = 1 := by
  intro pages m roots rank hok hlen hpar hrank
  obtain ⟨_, _, hfilter⟩ := get_all_pages_ok hok
  have hnd := get_all_pages_nodup hok
  have hstr := get_all_pages_ok_str hok
  subst hfilter
  exact ⟨(roots_total_count hnd hrank hpar hstr).trans hlen,
         roots_occ_one hnd hrank hpar hstr⟩

/-- C2 counterexample: a single record whose parent refers to an identifier
outside the input has pairwise-distinct identifiers, yet the forest contains
zero nodes instead of one — the record appears in no position at all. -/
theorem get_all_pages_count_cx :
    (get_all_pages [orphanPageW]).map
        (fun pr => (pr.2.map (fun r => subtreeCount pr.1 pr.1.length r)).sum)
      ≠ Except.ok 1 := by
  intro h
  have h1 : (get_all_pages [orphanPageW]).map
      (fun pr => (pr.2.map (fun r => subtreeCount pr.1 pr.1.length r)).sum)
        = Except.ok 0 := rfl
  rw [h1] at h
  simp at h

/-- The map built from `[pageA, pageB]`. -/
def mAB : List PageInfo :=
  [⟨some "a", pageA, PyVal.none⟩, ⟨some "b", pageB, PyVal.str "a"⟩]

/-- Rank function witnessing acyclicity of the `[pageA, pageB]` input. -/
def rankAB : Option String → Nat := fun k => if k == some "b" then 1 else 0

/-- Witness for the amended C2 at a concrete two-record input: the forest of
the root-and-child input carries both records, total count two. -/
theorem get_all_pages_partition_witness :
    (([⟨some "a", pageA, PyVal.none⟩] : List PageInfo).map
       (fun r => subtreeCount mAB mAB.length r)).sum = 2 := by
  have h := get_all_pages_partition [pageA, pageB] mAB
      [⟨some "a", pageA, PyVal.none⟩] rankAB rfl rfl ?hpar ?hrank
  · exact h.1
  case hpar =>
    intro i hi s hs
    simp only [mAB, List.mem_cons, List.not_mem_nil, or_false] at hi
    rcases hi with rfl | rfl
    · exact absurd hs (by simp [childKey])
    · have hs2 : s = "a" := by
        simp [childKey] at hs
        exact hs.symm
      subst hs2
      exact ⟨⟨some "a", pageA, PyVal.none⟩, by simp [mAB], rfl⟩
  case hrank =>
    intro i hi p hp
    simp only [mAB, List.mem_cons, List.not_mem_nil, or_false] at hi
    rcases hi with rfl | rfl
    · exact absurd hp (by simp [parentEntry, childKey])
    · have hpe : parentEntry mAB ⟨some "b", pageB, PyVal.str "a"⟩
          = some ⟨some "a", pageA, PyVal.none⟩ := rfl
      rw [hpe] at hp
      have hp2 : p = ⟨some "a", pageA, PyVal.none⟩ := (Option.some.inj hp).symm
      subst hp2
      simp [rankAB]
